import Mathlib

/-!
# RNP::Sparse — compressed column / compressed row matrices

A shallow embedding of `EngineAll/Victor/Sparse.h`.

Modelling conventions.

* A C array is a `List`; reading or writing outside the allocated extent is
  undefined behaviour in the source and is `none` here (`rdI`, `wrN`, `wrI`).
* `new int[k]` / `new T[k]` returns storage with indeterminate contents.  The
  contents are an explicit argument (`Fresh`), so that a slot which the
  constructor never writes keeps the value that argument gives it.
* `size_t` quantities are `Nat`; `int` quantities (`n`, `col`, `prevcol`, the
  stored `colptr`, `rowind`, ...) are `Int`.  Every conversion `size_t → int`
  of the constructors is `toInt`, which wraps modulo `2^32`; the `int` sum
  `n + 1` is `addInt`, which has no value on overflow.  Theorems about the
  constructors therefore assume that `N + 1` and the number of entries are
  representable as `int` (`N < 2147483647`, `nnz < 2147483648`).
* `std::map<index_t,T,index_comp_t>` is the list of its (key, value) pairs in
  iteration order, i.e. strictly ascending for `index_comp_t` (`IsEntryMap`).
* The scalar type `T` is any type with `+`, `*` and `0`; theorems take it to
  be a commutative ring (exact arithmetic).
* The copy constructor and `operator=` return the new object state; memory
  release has no observable effect and `operator=` is modelled for distinct
  objects.
* A well-formed matrix is one with the structural invariants `WellFormed`;
  `Stores` relates it to the entry list it holds.
-/

namespace RNP.Sparse

/-! ## Memory model -/

/-- Read `a[i]` for an `int` index; `none` when out of bounds. -/
def rdI {α : Type} (a : List α) (i : Int) : Option α :=
  if i < 0 then none else a[i.toNat]?

/-- Write `a[i] = v` for a `size_t` index; `none` when out of bounds. -/
def wrN {α : Type} (a : List α) (i : Nat) (v : α) : Option (List α) :=
  if i < a.length then some (a.set i v) else none

/-- Write `a[i] = v` for an `int` index; `none` when out of bounds. -/
def wrI {α : Type} (a : List α) (i : Int) (v : α) : Option (List α) :=
  if i < 0 then none else wrN a i.toNat v

/-- Indeterminate contents of the three arrays a constructor allocates:
`values = new T[nnz]`, the pointer array `new int[n+1]` and the index array
`new int[nnz]`. -/
structure Fresh (T : Type) where
  values : Nat → T
  ptr : Nat → Int
  ind : Nat → Int

/-- The array `new α[len]` whose slot `i` initially holds `f i`. -/
def newArray {α : Type} (f : Nat → α) (len : Nat) : List α :=
  (List.range len).map f

/-- The loop `for (int i = lo; i < hi; i++) body`, given its number of
iterations `(hi - lo).toNat` and its start `lo`. -/
def forLoop {σ : Type} (body : Int → σ → Option σ) : Nat → Int → σ → Option σ
  | 0, _, s => some s
  | k + 1, i, s => (body i s).bind (forLoop body k (i + 1))

/-- The allocation `new α[len]` for an `int` length: a negative `int` converts
to a `size_t` no allocation can satisfy, so no array is returned. -/
def alloc {α : Type} (f : Nat → α) (len : Int) : Option (List α) :=
  if len < 0 then none else some (newArray f len.toNat)

/-- The conversion of a `size_t` value to `int`: the value modulo `2^32`, read
as a 32-bit two's-complement integer. -/
def toInt (x : Nat) : Int :=
  ((x : Int) + 2147483648) % 4294967296 - 2147483648

/-- The `int` sum `a + b`; signed overflow is undefined behaviour and yields
no value. -/
def addInt (a b : Int) : Option Int :=
  if -2147483648 ≤ a + b ∧ a + b ≤ 2147483647 then some (a + b) else none

/-- The key type `std::pair<size_t,size_t>`: `first` is the row, `second` the
column. -/
abbrev index_t := Nat × Nat

/-- The entries of a `std::map<index_t,T,index_comp_t>` in iteration order. -/
abbrev entry_map_t (T : Type) := List (index_t × T)

/-- Local state of the constructor loops: the output position `ip`, the
tracked previous major index, and the three arrays. -/
structure BuildState (T : Type) where
  ip : Nat
  prev : Int
  ptr : List Int
  ind : List Int
  values : List T

/-! ## TCCSMatrix -/

/-- The struct `TCCSMatrix<T>`. -/
structure TCCSMatrix (T : Type) where
  n : Int
  colptr : List Int
  rowind : List Int
  values : List T

namespace TCCSMatrix

/-- The comparator `TCCSMatrix::index_comp_t`: sort by columns first, then rows. -/
def index_comp_t (a b : index_t) : Bool :=
  if a.2 < b.2 then true
  else if a.2 > b.2 then false
  else decide (a.1 < b.1)

/-- One iteration of the loop of `TCCSMatrix(size_t N, const entry_map_t&)`.
The column, the stored row and the stored offset `ip-1` are converted from
`size_t` to `int`. -/
def step {T : Type} (st : BuildState T) (e : index_t × T) : Option (BuildState T) :=
  let col : Int := toInt e.1.2
  (wrN st.ind st.ip (toInt e.1.1)).bind fun rowind =>
  (wrN st.values st.ip e.2).bind fun values =>
  let ip := st.ip + 1
  if st.prev ≠ col then
    (wrI st.ptr col (toInt (ip - 1))).bind fun colptr =>
    some { ip := ip, prev := col, ptr := colptr, ind := rowind, values := values }
  else
    some { ip := ip, prev := st.prev, ptr := st.ptr, ind := rowind, values := values }

/-- The loop of `TCCSMatrix(size_t N, const entry_map_t&)` over the entries. -/
def loop {T : Type} : List (index_t × T) → BuildState T → Option (BuildState T)
  | [], st => some st
  | e :: es, st => (step st e).bind (loop es)

/-- The constructor `TCCSMatrix(size_t N, const entry_map_t &entries)`; `mem`
is the indeterminate content of the arrays it allocates.  The member `n` is
`N` converted to `int`, the pointer array has `n + 1` slots (an `int` sum),
and `colptr[n]` receives `nnz` converted to `int`. -/
def ofEntries {T : Type} (N : Nat) (entries : entry_map_t T) (mem : Fresh T) :
    Option (TCCSMatrix T) :=
  let n : Int := toInt N
  let nnz := entries.length
  let values := newArray mem.values nnz
  (addInt n 1).bind fun n1 =>
  (alloc mem.ptr n1).bind fun colptr =>
  let rowind := newArray mem.ind nnz
  (wrN colptr 0 0).bind fun colptr =>
  (loop entries { ip := 0, prev := 0, ptr := colptr, ind := rowind, values := values }).bind
    fun st =>
  (wrI st.ptr n (toInt nnz)).bind fun colptr =>
  some { n := n, colptr := colptr, rowind := st.ind, values := st.values }

/-- The kernel `MultMV(const TCCSMatrix<T>&, const T *X, T *Y, scale_AX, scale_Y)`;
the result is the final content of `Y`.  (The source defaults `scale_AX = 1`
and `scale_Y = 0`.) -/
def MultMV {T : Type} [Add T] [Mul T] (A : TCCSMatrix T) (X Y : List T)
    (scale_AX scale_Y : T) : Option (List T) :=
  (forLoop (fun j Y => (rdI Y j).bind fun y => wrI Y j (y * scale_Y)) A.n.toNat 0 Y).bind
    fun Y =>
  forLoop (fun j Y =>
    (rdI A.colptr j).bind fun lo =>
    (rdI A.colptr (j + 1)).bind fun hi =>
    forLoop (fun ip Y =>
      (rdI A.rowind ip).bind fun i =>
      (rdI X j).bind fun x =>
      (rdI A.values ip).bind fun v =>
      (rdI Y i).bind fun y =>
      wrI Y i (y + scale_AX * x * v)) (hi - lo).toNat lo Y) A.n.toNat 0 Y

/-- Read back column `k`: the pairs `(rowind[p], values[p])` for
`p = colptr[k], ..., colptr[k+1] - 1`, in that order. -/
def column {T : Type} (A : TCCSMatrix T) (k : Nat) : Option (List (Int × T)) :=
  (rdI A.colptr k).bind fun lo =>
  (rdI A.colptr (k + 1)).bind fun hi =>
  forLoop (fun p acc =>
    (rdI A.rowind p).bind fun i =>
    (rdI A.values p).bind fun v => some (acc ++ [(i, v)])) (hi - lo).toNat lo []

end TCCSMatrix

/-! ## TCRSMatrix -/

/-- The struct `TCRSMatrix<T>`. -/
structure TCRSMatrix (T : Type) where
  n : Int
  colind : List Int
  rowptr : List Int
  values : List T

namespace TCRSMatrix

/-- The comparator `TCRSMatrix::index_comp_t`: sort by rows first, then columns. -/
def index_comp_t (a b : index_t) : Bool :=
  if a.1 < b.1 then true
  else if a.1 > b.1 then false
  else decide (a.2 < b.2)

/-- One iteration of the loop of `TCRSMatrix(size_t N, const entry_map_t&)`.
The row, the stored column and the stored offset `ip-1` are converted from
`size_t` to `int`. -/
def step {T : Type} (st : BuildState T) (e : index_t × T) : Option (BuildState T) :=
  let row : Int := toInt e.1.1
  (wrN st.ind st.ip (toInt e.1.2)).bind fun colind =>
  (wrN st.values st.ip e.2).bind fun values =>
  let ip := st.ip + 1
  if st.prev ≠ row then
    (wrI st.ptr row (toInt (ip - 1))).bind fun rowptr =>
    some { ip := ip, prev := row, ptr := rowptr, ind := colind, values := values }
  else
    some { ip := ip, prev := st.prev, ptr := st.ptr, ind := colind, values := values }

/-- The loop of `TCRSMatrix(size_t N, const entry_map_t&)` over the entries. -/
def loop {T : Type} : List (index_t × T) → BuildState T → Option (BuildState T)
  | [], st => some st
  | e :: es, st => (step st e).bind (loop es)

/-- The constructor `TCRSMatrix(size_t N, const entry_map_t &entries)`; `mem`
is the indeterminate content of the arrays it allocates.  The member `n` is
`N` converted to `int`, the pointer array has `n + 1` slots (an `int` sum),
and `rowptr[n]` receives `nnz` converted to `int`. -/
def ofEntries {T : Type} (N : Nat) (entries : entry_map_t T) (mem : Fresh T) :
    Option (TCRSMatrix T) :=
  let n : Int := toInt N
  let nnz := entries.length
  let values := newArray mem.values nnz
  (addInt n 1).bind fun n1 =>
  (alloc mem.ptr n1).bind fun rowptr =>
  let colind := newArray mem.ind nnz
  (wrN rowptr 0 0).bind fun rowptr =>
  (loop entries { ip := 0, prev := 0, ptr := rowptr, ind := colind, values := values }).bind
    fun st =>
  (wrI st.ptr n (toInt nnz)).bind fun rowptr =>
  some { n := n, colind := st.ind, rowptr := rowptr, values := st.values }

/-- The kernel `MultMV(const TCRSMatrix<T>&, const T *X, T *Y, scale_AX, scale_Y)`;
the result is the final content of `Y`.  (The source defaults `scale_AX = 1`
and `scale_Y = 0`.) -/
def MultMV {T : Type} [Add T] [Mul T] [Zero T] (A : TCRSMatrix T) (X Y : List T)
    (scale_AX scale_Y : T) : Option (List T) :=
  forLoop (fun i Y =>
    (rdI A.rowptr i).bind fun lo =>
    (rdI A.rowptr (i + 1)).bind fun hi =>
    (forLoop (fun jp sum =>
      (rdI A.colind jp).bind fun j =>
      (rdI X j).bind fun x =>
      (rdI A.values jp).bind fun v =>
      some (sum + scale_AX * x * v)) (hi - lo).toNat lo 0).bind fun sum =>
    (rdI Y i).bind fun y =>
    wrI Y i (scale_Y * y + scale_AX * sum)) A.n.toNat 0 Y

/-- Read back row `k`: the pairs `(colind[p], values[p])` for
`p = rowptr[k], ..., rowptr[k+1] - 1`, in that order. -/
def row {T : Type} (A : TCRSMatrix T) (k : Nat) : Option (List (Int × T)) :=
  (rdI A.rowptr k).bind fun lo =>
  (rdI A.rowptr (k + 1)).bind fun hi =>
  forLoop (fun p acc =>
    (rdI A.colind p).bind fun j =>
    (rdI A.values p).bind fun v => some (acc ++ [(j, v)])) (hi - lo).toNat lo []

end TCRSMatrix

/-- Apply a fallible step to the elements of a list in order. -/
def foldOpt {σ β : Type} (f : σ → β → Option σ) : List β → σ → Option σ
  | [], s => some s
  | e :: es, s => (f s e).bind (foldOpt f es)

/-! ## Entry sets -/

/-- Exchange the row and the column of an entry's key. -/
def swapEntry {T : Type} (e : index_t × T) : index_t × T := ((e.1.2, e.1.1), e.2)

/-- The entry set `E^T`: every key of `E` with row and column exchanged. -/
def transpose {T : Type} (l : entry_map_t T) : entry_map_t T := l.map swapEntry

/-- All row and column indices of the entries are `< n`. -/
def InRange {T : Type} (n : Nat) (l : entry_map_t T) : Prop :=
  ∀ e ∈ l, e.1.1 < n ∧ e.1.2 < n

/-- Every column `0..n-1` holds at least one entry. -/
def ColsPopulated {T : Type} (n : Nat) (l : entry_map_t T) : Prop :=
  ∀ k < n, ∃ e ∈ l, e.1.2 = k

/-- Every row `0..n-1` holds at least one entry. -/
def RowsPopulated {T : Type} (n : Nat) (l : entry_map_t T) : Prop :=
  ∀ k < n, ∃ e ∈ l, e.1.1 = k

/-- The list is the iteration order of a `TCCSMatrix::entry_map_t`: strictly
ascending for the CCS comparator (hence with unique keys). -/
def TCCSMatrix.IsEntryMap {T : Type} (l : entry_map_t T) : Prop :=
  l.Pairwise fun a b => TCCSMatrix.index_comp_t a.1 b.1 = true

/-- The list is the iteration order of a `TCRSMatrix::entry_map_t`: strictly
ascending for the CRS comparator (hence with unique keys). -/
def TCRSMatrix.IsEntryMap {T : Type} (l : entry_map_t T) : Prop :=
  l.Pairwise fun a b => TCRSMatrix.index_comp_t a.1 b.1 = true

/-- The number of entries whose column is `< k`. -/
def colsBelow {T : Type} (l : entry_map_t T) (k : Nat) : Nat :=
  l.countP fun e => decide (e.1.2 < k)

/-- The number of entries whose row is `< k`. -/
def rowsBelow {T : Type} (l : entry_map_t T) (k : Nat) : Nat :=
  l.countP fun e => decide (e.1.1 < k)

/-- Row `i` of the product `A*X` for the logical matrix given by the entry set
`E`: the sum over the entries `(i, j)` of `E` of `E(i,j) * X[j]`. -/
def rowDot {T : Type} [Add T] [Mul T] [Zero T] (l : entry_map_t T) (X : List T) (i : Nat) : T :=
  ((l.filter (fun e => decide (e.1.1 = i))).map (fun e => e.2 * X.getD e.1.2 0)).sum

/-- The update `Y[i] += scale_AX*X[j]*v` of the CCS kernel for one stored
entry `((i, j), v)`. -/
def scatter {T : Type} [Add T] [Mul T] (scale_AX : T) (X : List T) (Y : List T)
    (e : index_t × T) : Option (List T) :=
  (X[e.1.2]?).bind fun x => (Y[e.1.1]?).bind fun y => wrN Y e.1.1 (y + scale_AX * x * e.2)

/-- The update `sum += scale_AX*X[j]*v` of the CRS kernel for one stored
entry `((i, j), v)`. -/
def gather {T : Type} [Add T] [Mul T] (scale_AX : T) (X : List T) (sum : T)
    (e : index_t × T) : Option T :=
  (X[e.1.2]?).bind fun x => some (sum + scale_AX * x * e.2)

/-- The matrix `A` is the compressed-column storage of the entries `l` of an
`N × N` matrix, listed in ascending column order.  Slot `k ≤ N` of `colptr` is
the offset of column `k` (the number of entries in the columns before it, so
`colptr[0] = 0`, `colptr[N] = nnz` and `colptr` is non-decreasing), and
`rowind`, `values` hold the rows and the values.  Every matrix with the
structural invariants `WellFormed` stores its `entries`. -/
def TCCSMatrix.Stores {T : Type} (A : TCCSMatrix T) (N : Nat) (l : entry_map_t T) : Prop :=
  l.Pairwise (fun a b => a.1.2 ≤ b.1.2) ∧ InRange N l ∧ A.n = (N : Int) ∧
  (∀ k, k ≤ N → A.colptr[k]? = some ((colsBelow l k : Nat) : Int)) ∧
  A.rowind = l.map (fun e => (e.1.1 : Int)) ∧ A.values = l.map (fun e => e.2)

/-- The matrix `B` is the compressed-row storage of the entries `l` of an
`N × N` matrix, listed in ascending row order.  Slot `k ≤ N` of `rowptr` is the
offset of row `k`, and `colind`, `values` hold the columns and the values.
Every matrix with the structural invariants `WellFormed` stores its
`entries`. -/
def TCRSMatrix.Stores {T : Type} (B : TCRSMatrix T) (N : Nat) (l : entry_map_t T) : Prop :=
  l.Pairwise (fun a b => a.1.1 ≤ b.1.1) ∧ InRange N l ∧ B.n = (N : Int) ∧
  (∀ k, k ≤ N → B.rowptr[k]? = some ((rowsBelow l k : Nat) : Int)) ∧
  B.colind = l.map (fun e => (e.1.2 : Int)) ∧ B.values = l.map (fun e => e.2)

/-- The structural invariants of a CCS matrix of dimension `N`: the pointer
array has `N + 1` slots, starts at `0`, ends at `nnz` (the common length of the
index and value arrays) and is non-decreasing, and every stored row index lies
in `[0, N)`. -/
def TCCSMatrix.WellFormed {T : Type} (A : TCCSMatrix T) (N : Nat) : Prop :=
  A.n = (N : Int) ∧ A.colptr.length = N + 1 ∧ A.colptr[0]? = some 0 ∧
  A.colptr[N]? = some (A.rowind.length : Int) ∧ A.values.length = A.rowind.length ∧
  (∀ k, k < N → A.colptr.getD k 0 ≤ A.colptr.getD (k + 1) 0) ∧
  (∀ i ∈ A.rowind, 0 ≤ i ∧ i < (N : Int))

/-- The column of the entry stored at position `p` of a CCS matrix: the number
of columns whose slice ends at or before `p`. -/
def TCCSMatrix.colOf {T : Type} (A : TCCSMatrix T) (N p : Nat) : Nat :=
  (List.range N).countP fun j => decide (A.colptr.getD (j + 1) 0 ≤ (p : Int))

/-- The entries a CCS matrix stores, in storage order. -/
def TCCSMatrix.entries {T : Type} [Zero T] (A : TCCSMatrix T) (N : Nat) : entry_map_t T :=
  (List.range A.rowind.length).map fun p =>
    (((A.rowind.getD p 0).toNat, A.colOf N p), A.values.getD p 0)

/-- The structural invariants of a CRS matrix of dimension `N`: the pointer
array has `N + 1` slots, starts at `0`, ends at `nnz` (the common length of the
index and value arrays) and is non-decreasing, and every stored column index
lies in `[0, N)`. -/
def TCRSMatrix.WellFormed {T : Type} (B : TCRSMatrix T) (N : Nat) : Prop :=
  B.n = (N : Int) ∧ B.rowptr.length = N + 1 ∧ B.rowptr[0]? = some 0 ∧
  B.rowptr[N]? = some (B.colind.length : Int) ∧ B.values.length = B.colind.length ∧
  (∀ k, k < N → B.rowptr.getD k 0 ≤ B.rowptr.getD (k + 1) 0) ∧
  (∀ j ∈ B.colind, 0 ≤ j ∧ j < (N : Int))

/-- The row of the entry stored at position `p` of a CRS matrix: the number of
rows whose slice ends at or before `p`. -/
def TCRSMatrix.rowOf {T : Type} (B : TCRSMatrix T) (N p : Nat) : Nat :=
  (List.range N).countP fun i => decide (B.rowptr.getD (i + 1) 0 ≤ (p : Int))

/-- The entries a CRS matrix stores, in storage order. -/
def TCRSMatrix.entries {T : Type} [Zero T] (B : TCRSMatrix T) (N : Nat) : entry_map_t T :=
  (List.range B.colind.length).map fun p =>
    ((B.rowOf N p, (B.colind.getD p 0).toNat), B.values.getD p 0)

/-- A sample of indeterminate array contents, used in concrete evaluations. -/
def staleMem : Fresh Int := { values := fun _ => 99, ptr := fun _ => 7, ind := fun _ => 8 }

/-- The entries `(0,0) = 2, (1,0) = 1, (1,1) = 3` of a `2 × 2` matrix; the list
is both in CCS and in CRS traversal order. -/
def sampleEntries : entry_map_t Int := [((0, 0), 2), ((1, 0), 1), ((1, 1), 3)]

/-- The CCS storage of `sampleEntries`. -/
def sampleCCS : TCCSMatrix Int :=
  { n := 2, colptr := [0, 2, 3], rowind := [0, 1, 1], values := [2, 1, 3] }

/-- The CRS storage of `sampleEntries`. -/
def sampleCRS : TCRSMatrix Int :=
  { n := 2, colind := [0, 0, 1], rowptr := [0, 1, 3], values := [2, 1, 3] }

/-! ## Memory lemmas -/

theorem wrN_of_lt {α : Type} {a : List α} {i : Nat} (h : i < a.length) (v : α) :
    wrN a i v = some (a.set i v) := by
  simp [wrN, h]

theorem wrN_eq_some_iff {α : Type} {a b : List α} {i : Nat} {v : α} :
    wrN a i v = some b ↔ i < a.length ∧ b = a.set i v := by
  unfold wrN
  split <;> simp_all [eq_comm]

@[simp] theorem rdI_natCast {α : Type} (a : List α) (k : Nat) : rdI a (k : Int) = a[k]? := by
  simp [rdI]

@[simp] theorem wrI_natCast {α : Type} (a : List α) (k : Nat) (v : α) :
    wrI a (k : Int) v = wrN a k v := by
  simp [wrI]

@[simp] theorem length_newArray {α : Type} (f : Nat → α) (len : Nat) :
    (newArray f len).length = len := by
  simp [newArray]

theorem getElem?_newArray {α : Type} (f : Nat → α) {len k : Nat} (h : k < len) :
    (newArray f len)[k]? = some (f k) := by
  simp [newArray, List.getElem?_range h]

/-! ## The constructor loop -/

theorem toInt_of_lt {x : Nat} (h : x < 2147483648) : toInt x = (x : Int) := by
  unfold toInt
  omega

theorem addInt_natCast_one {N : Nat} (h : N < 2147483647) :
    addInt (N : Int) 1 = some (((N + 1 : Nat) : Int)) := by
  unfold addInt
  rw [if_pos (by omega)]
  rfl

theorem alloc_natCast {α : Type} (f : Nat → α) (k : Nat) :
    alloc f (k : Int) = some (newArray f k) := by
  simp [alloc]

namespace TCCSMatrix

theorem step_eq {T : Type} (st : BuildState T) (e : index_t × T)
    (h1 : st.ip < st.ind.length) (h2 : st.ip < st.values.length)
    (h3 : e.1.2 < st.ptr.length)
    (hrow : e.1.1 < 2147483648) (hcol : e.1.2 < 2147483648) (hip : st.ip < 2147483648) :
    step st e = some
      { ip := st.ip + 1, prev := (e.1.2 : Int),
        ptr := if st.prev = (e.1.2 : Int) then st.ptr else st.ptr.set e.1.2 (st.ip : Int),
        ind := st.ind.set st.ip (e.1.1 : Int),
        values := st.values.set st.ip e.2 } := by
  unfold step
  dsimp only
  rw [toInt_of_lt hrow, toInt_of_lt hcol, Nat.add_sub_cancel, toInt_of_lt hip]
  by_cases hp : st.prev = (e.1.2 : Int)
  · simp [wrN_of_lt h1, wrN_of_lt h2, hp]
  · simp [wrN_of_lt h1, wrN_of_lt h2, wrN_of_lt h3, hp]

/-- The loop succeeds when the arrays are large enough and rows, columns and
positions fit in an `int`; it advances `ip` by the number of entries and fills
`ind` and `values` at positions `[ip, ip + length)` in traversal order. -/
theorem loop_arrays {T : Type} (l : List (index_t × T)) :
    ∀ st : BuildState T, st.ip + l.length ≤ st.ind.length →
      st.ip + l.length ≤ st.values.length → (∀ e ∈ l, e.1.2 < st.ptr.length) →
      (∀ e ∈ l, e.1.1 < 2147483648 ∧ e.1.2 < 2147483648) →
      st.ip + l.length ≤ 2147483648 →
      ∃ st2, loop l st = some st2 ∧ st2.ip = st.ip + l.length ∧
        st2.ptr.length = st.ptr.length ∧ st2.ind.length = st.ind.length ∧
        st2.values.length = st.values.length ∧
        (∀ p, st2.ind[p]? = if st.ip ≤ p ∧ p < st.ip + l.length
          then (l[p - st.ip]?).map (fun e => (e.1.1 : Int)) else st.ind[p]?) ∧
        (∀ p, st2.values[p]? = if st.ip ≤ p ∧ p < st.ip + l.length
          then (l[p - st.ip]?).map (fun e => e.2) else st.values[p]?) := by
  induction l with
  | nil =>
    intro st _ _ _ _ _
    refine ⟨st, rfl, by simp, rfl, rfl, rfl, ?_, ?_⟩ <;>
    · intro p
      simp only [List.length_nil, Nat.add_zero]
      rw [if_neg (by omega)]
  | cons e l ih =>
    intro st h1 h2 h3 hb hipb
    simp only [List.length_cons] at h1 h2 hipb
    have hbe := hb e (List.mem_cons_self _ _)
    have hs := step_eq st e (by omega) (by omega) (h3 e (List.mem_cons_self _ _))
      hbe.1 hbe.2 (by omega)
    have hplen : (if st.prev = (e.1.2 : Int) then st.ptr
        else st.ptr.set e.1.2 (st.ip : Int)).length = st.ptr.length := by split <;> simp
    obtain ⟨st2, hl, hip, hptr, hind, hval, hi, hv⟩ := ih
      { ip := st.ip + 1, prev := (e.1.2 : Int),
        ptr := if st.prev = (e.1.2 : Int) then st.ptr else st.ptr.set e.1.2 (st.ip : Int),
        ind := st.ind.set st.ip (e.1.1 : Int),
        values := st.values.set st.ip e.2 }
      (by simp only [List.length_set]; omega) (by simp only [List.length_set]; omega)
      (by intro x hx; rw [hplen]; exact h3 x (List.mem_cons_of_mem _ hx))
      (fun x hx => hb x (List.mem_cons_of_mem _ hx))
      (by show st.ip + 1 + l.length ≤ 2147483648; omega)
    simp only [List.length_set] at hip hind hval hi hv
    refine ⟨st2, by simp [loop, hs, hl], by rw [hip, List.length_cons]; omega,
      by rw [hptr, hplen], hind, hval, ?_, ?_⟩
    · intro p
      rw [hi p]
      simp only [List.length_cons]
      by_cases hp : p = st.ip
      · subst hp
        have : st.ip < st.ind.length := by omega
        simp [List.getElem?_set, this]
      · rw [List.getElem?_set_ne (Ne.symm hp)]
        by_cases hlt : st.ip + 1 ≤ p ∧ p < st.ip + 1 + l.length
        · have h4 : st.ip ≤ p ∧ p < st.ip + (l.length + 1) := by omega
          have h5 : p - st.ip = (p - (st.ip + 1)) + 1 := by omega
          rw [if_pos hlt, if_pos h4, h5, List.getElem?_cons_succ]
        · have h4 : ¬ (st.ip ≤ p ∧ p < st.ip + (l.length + 1)) := by omega
          rw [if_neg hlt, if_neg h4]
    · intro p
      rw [hv p]
      simp only [List.length_cons]
      by_cases hp : p = st.ip
      · subst hp
        have : st.ip < st.values.length := by omega
        simp [List.getElem?_set, this]
      · rw [List.getElem?_set_ne (Ne.symm hp)]
        by_cases hlt : st.ip + 1 ≤ p ∧ p < st.ip + 1 + l.length
        · have h4 : st.ip ≤ p ∧ p < st.ip + (l.length + 1) := by omega
          have h5 : p - st.ip = (p - (st.ip + 1)) + 1 := by omega
          rw [if_pos hlt, if_pos h4, h5, List.getElem?_cons_succ]
        · have h4 : ¬ (st.ip ≤ p ∧ p < st.ip + (l.length + 1)) := by omega
          rw [if_neg hlt, if_neg h4]

theorem step_inv {T : Type} {st st1 : BuildState T} {e : index_t × T}
    (hrow : e.1.1 < 2147483648) (hcol : e.1.2 < 2147483648) (hip : st.ip < 2147483648)
    (h : step st e = some st1) :
    st1.ip = st.ip + 1 ∧ st1.prev = (e.1.2 : Int) ∧
      ((st.prev = (e.1.2 : Int) ∧ st1.ptr = st.ptr) ∨
        (st.prev ≠ (e.1.2 : Int) ∧ e.1.2 < st.ptr.length ∧
          st1.ptr = st.ptr.set e.1.2 (st.ip : Int))) := by
  unfold step at h
  dsimp only at h
  rw [toInt_of_lt hrow, toInt_of_lt hcol, Nat.add_sub_cancel, toInt_of_lt hip] at h
  simp only [Option.bind_eq_some] at h
  obtain ⟨rowind, -, values, -, h⟩ := h
  by_cases hp : st.prev = (e.1.2 : Int)
  · simp only [hp, ne_eq, not_true_eq_false, if_false, Option.some.injEq] at h
    subst h
    exact ⟨rfl, rfl, Or.inl ⟨hp, rfl⟩⟩
  · simp only [ne_eq, hp, not_false_eq_true, if_true, Option.bind_eq_some,
      Option.some.injEq, wrI_natCast] at h
    obtain ⟨colptr, hw, h⟩ := h
    subst h
    obtain ⟨hlt, hset⟩ := wrN_eq_some_iff.mp hw
    exact ⟨rfl, rfl, Or.inr ⟨hp, hlt, hset⟩⟩

theorem colsBelow_cons_of_lt {T : Type} (e : index_t × T) (l : List (index_t × T)) {k : Nat}
    (h : e.1.2 < k) : colsBelow (e :: l) k = colsBelow l k + 1 := by
  simp [colsBelow, List.countP_cons, h]

theorem colsBelow_eq_zero {T : Type} (l : List (index_t × T)) {k : Nat}
    (h : ∀ e ∈ l, k ≤ e.1.2) : colsBelow l k = 0 := by
  simp only [colsBelow, List.countP_eq_zero, decide_eq_true_eq, not_lt]
  exact h

/-- Pointer slots after the loop, for entries in column-ascending order that
start at or above the tracked previous column `c`, with rows, columns and
positions that fit in an `int`: the slot of a column above `c` that holds an
entry is the offset of its first entry, every other slot is untouched. -/
theorem loop_ptr {T : Type} (l : List (index_t × T)) :
    ∀ (st st2 : BuildState T) (c : Nat), st.prev = (c : Int) → loop l st = some st2 →
      (∀ e ∈ l, e.1.1 < 2147483648 ∧ e.1.2 < 2147483648) →
      st.ip + l.length ≤ 2147483648 →
      l.Pairwise (fun a b => a.1.2 ≤ b.1.2) → (∀ e ∈ l, c ≤ e.1.2) →
      (∀ k, c < k → (∃ e ∈ l, e.1.2 = k) →
        st2.ptr[k]? = some (((st.ip + colsBelow l k : Nat) : Int))) ∧
      (∀ k, (k ≤ c ∨ ∀ e ∈ l, e.1.2 ≠ k) → st2.ptr[k]? = st.ptr[k]?) := by
  induction l with
  | nil =>
    intro st st2 c _ h _ _ _ _
    simp only [loop, Option.some.injEq] at h
    subst h
    exact ⟨by simp, by simp⟩
  | cons e l ih =>
    intro st st2 c hc h hb hipb hpw hge
    simp only [List.length_cons] at hipb
    simp only [loop, Option.bind_eq_some] at h
    obtain ⟨st1, hs, hl⟩ := h
    have hbe := hb e (List.mem_cons_self _ _)
    obtain ⟨hip, hprev, hptr⟩ := step_inv hbe.1 hbe.2 (by omega) hs
    rw [List.pairwise_cons] at hpw
    have hge1 : ∀ x ∈ l, e.1.2 ≤ x.1.2 := fun x hx => hpw.1 x hx
    obtain ⟨iha, ihb⟩ := ih st1 st2 e.1.2 hprev hl
      (fun x hx => hb x (List.mem_cons_of_mem _ hx)) (by rw [hip]; omega) hpw.2 hge1
    have hpe : c ≤ e.1.2 := hge e (List.mem_cons_self _ _)
    rw [hc] at hptr
    constructor
    · intro k hk hex
      obtain ⟨x, hx, hxk⟩ := hex
      rcases hptr with ⟨heq, -⟩ | ⟨hne, hlt, hset⟩
      · -- no pointer write at this entry
        have hce : c = e.1.2 := by exact_mod_cast heq
        have hck : e.1.2 < k := by omega
        have hxl : x ∈ l := by
          rcases List.mem_cons.mp hx with rfl | hx
          · omega
          · exact hx
        rw [iha k (by omega) ⟨x, hxl, hxk⟩, colsBelow_cons_of_lt e l hck, hip]
        congr 2; omega
      · by_cases hkc : k = e.1.2
        · subst hkc
          rw [ihb _ (Or.inl (le_refl _)), hset, List.getElem?_set, if_pos rfl, if_pos hlt,
            colsBelow_eq_zero]
          · rfl
          · intro y hy
            rcases List.mem_cons.mp hy with rfl | hy
            · exact le_refl _
            · exact hpw.1 y hy
        · have hxl : x ∈ l := by
            rcases List.mem_cons.mp hx with rfl | hx
            · exact absurd hxk.symm hkc
            · exact hx
          have hck : e.1.2 < k := by
            have := hpw.1 x hxl
            omega
          rw [iha k (by omega) ⟨x, hxl, hxk⟩, colsBelow_cons_of_lt e l hck, hip]
          congr 2; omega
    · intro k hk
      have hk1 : k ≤ e.1.2 ∨ ∀ x ∈ l, x.1.2 ≠ k := by
        rcases hk with hk | hk
        · exact Or.inl (by omega)
        · exact Or.inr fun x hx => hk x (List.mem_cons_of_mem _ hx)
      rw [ihb k hk1]
      rcases hptr with ⟨-, heq⟩ | ⟨hne, hlt, hset⟩
      · rw [heq]
      · have hkc : e.1.2 ≠ k := by
          rcases hk with hk | hk
          · intro hek
            apply hne
            have : c = e.1.2 := by omega
            exact_mod_cast this
          · exact hk e (List.mem_cons_self _ _)
        rw [hset, List.getElem?_set_ne hkc]

/-- The constructor returns a matrix whenever the dimension and the number of
entries fit in an `int` and every index is `< N`; its index and value arrays
are the rows and the values of the entries in traversal order, and its
pointer array is the loop's, with slot `N` set to the number of entries. -/
theorem ofEntries_arrays {T : Type} (N : Nat) (l : entry_map_t T) (mem : Fresh T)
    (hN : N < 2147483647) (hnnz : l.length < 2147483648) (hr : InRange N l) :
    ∃ A st, ofEntries N l mem = some A ∧
      loop l { ip := 0, prev := 0, ptr := (newArray mem.ptr (N + 1)).set 0 0,
               ind := newArray mem.ind l.length,
               values := newArray mem.values l.length } = some st ∧
      A.n = (N : Int) ∧ A.colptr = st.ptr.set N (l.length : Int) ∧
      st.ptr.length = N + 1 ∧
      A.rowind = l.map (fun e => (e.1.1 : Int)) ∧ A.values = l.map (fun e => e.2) := by
  have hb : ∀ e ∈ l, e.1.1 < 2147483648 ∧ e.1.2 < 2147483648 := by
    intro e he
    have := hr e he
    omega
  obtain ⟨st, hl, -, hptr, hind, hval, hi, hv⟩ := loop_arrays l
    { ip := 0, prev := 0, ptr := (newArray mem.ptr (N + 1)).set 0 0,
      ind := newArray mem.ind l.length, values := newArray mem.values l.length }
    (by simp) (by simp)
    (by intro e he; have := (hr e he).2; simp; omega) hb
    (by show 0 + l.length ≤ 2147483648; omega)
  simp only [List.length_set, length_newArray] at hptr hind hval
  simp only [Nat.zero_le, true_and, Nat.zero_add, Nat.sub_zero] at hi hv
  refine ⟨{ n := (N : Int), colptr := st.ptr.set N (l.length : Int), rowind := st.ind,
            values := st.values }, st, ?_, hl, rfl, rfl, hptr, ?_, ?_⟩
  · unfold ofEntries
    dsimp only
    rw [toInt_of_lt (by omega : N < 2147483648), addInt_natCast_one hN, Option.some_bind,
      alloc_natCast, Option.some_bind, wrN_of_lt (by simp)]
    simp only [Option.some_bind, hl]
    rw [wrI_natCast, toInt_of_lt hnnz, wrN_of_lt (by omega)]
    rfl
  · apply List.ext_getElem?
    intro p
    rw [hi p]
    by_cases hp : p < l.length
    · simp [hp]
    · rw [if_neg hp, List.getElem?_eq_none (by simp; omega),
        List.getElem?_eq_none (by simp; omega)]
  · apply List.ext_getElem?
    intro p
    rw [hv p]
    by_cases hp : p < l.length
    · simp [hp]
    · rw [if_neg hp, List.getElem?_eq_none (by simp; omega),
        List.getElem?_eq_none (by simp; omega)]

/-- Pointer slots of the constructed matrix, for entries in column-ascending
order with indices `< N`, when the dimension and the number of entries fit in
an `int`. -/
theorem ofEntries_ptr {T : Type} (N : Nat) (l : entry_map_t T) (mem : Fresh T)
    (hN : N < 2147483647) (hnnz : l.length < 2147483648) (hr : InRange N l)
    (hpw : l.Pairwise (fun a b => a.1.2 ≤ b.1.2))
    {A : TCCSMatrix T} (hA : ofEntries N l mem = some A) :
    A.colptr.length = N + 1 ∧ A.colptr[N]? = some (l.length : Int) ∧
    (∀ k, k < N → (∃ e ∈ l, e.1.2 = k) → A.colptr[k]? = some ((colsBelow l k : Nat) : Int)) ∧
    (∀ k, 0 < k → k < N → (∀ e ∈ l, e.1.2 ≠ k) → A.colptr[k]? = some (mem.ptr k)) ∧
    (0 < N → A.colptr[0]? = some 0) := by
  have hb : ∀ e ∈ l, e.1.1 < 2147483648 ∧ e.1.2 < 2147483648 := by
    intro e he
    have := hr e he
    omega
  obtain ⟨A2, st, hA2, hl, -, hc, hlen, -, -⟩ := ofEntries_arrays N l mem hN hnnz hr
  rw [hA] at hA2
  cases hA2
  obtain ⟨ha, hb⟩ := loop_ptr l _ st 0 rfl hl hb (by show 0 + l.length ≤ 2147483648; omega)
    hpw (by simp)
  simp only [Nat.zero_add] at ha hb
  have h0 : A.colptr[0]? = some 0 ∨ N = 0 := by
    by_cases hN0 : N = 0
    · exact Or.inr hN0
    · left
      rw [hc, List.getElem?_set_ne hN0, hb 0 (Or.inl (le_refl _))]
      simp [List.getElem?_set]
  refine ⟨by rw [hc, List.length_set, hlen], by rw [hc]; simp [List.getElem?_set, hlen],
    ?_, ?_, ?_⟩
  · intro k hk hex
    by_cases hk0 : k = 0
    · subst hk0
      rcases h0 with h0 | h0
      · rw [h0, colsBelow_eq_zero l (fun _ _ => Nat.zero_le _)]; rfl
      · omega
    · rw [hc, List.getElem?_set_ne (by omega), ha k (by omega) hex]
  · intro k hk0 hk hno
    rw [hc, List.getElem?_set_ne (by omega), hb k (Or.inr hno),
      List.getElem?_set_ne (by omega), getElem?_newArray _ (by omega)]
  · intro hN0
    rcases h0 with h0 | h0
    · exact h0
    · omega

theorem index_comp_col_le {a b : index_t} (h : index_comp_t a b = true) : a.2 ≤ b.2 := by
  unfold index_comp_t at h
  by_cases h1 : a.2 < b.2
  · omega
  · by_cases h2 : a.2 > b.2
    · simp [h1, h2] at h
    · omega

theorem IsEntryMap.cols_mono {T : Type} {l : entry_map_t T} (h : IsEntryMap l) :
    l.Pairwise (fun a b => a.1.2 ≤ b.1.2) :=
  List.Pairwise.imp (fun hab => index_comp_col_le hab) h

theorem colsBelow_succ {T : Type} (l : entry_map_t T) (k : Nat) :
    colsBelow l (k + 1) = colsBelow l k + l.countP (fun e => decide (e.1.2 = k)) := by
  induction l with
  | nil => rfl
  | cons e l ih =>
    unfold colsBelow at ih ⊢
    simp only [List.countP_cons, ih, decide_eq_true_eq]
    by_cases h1 : e.1.2 < k
    · have h2 : e.1.2 < k + 1 := by omega
      have h3 : e.1.2 ≠ k := by omega
      simp [h1, h2, h3]; omega
    · by_cases h3 : e.1.2 = k
      · have h2 : e.1.2 < k + 1 := by omega
        simp [h1, h2, h3]; omega
      · have h2 : ¬ e.1.2 < k + 1 := by omega
        simp [h1, h2, h3]

theorem colsBelow_eq_length {T : Type} (l : entry_map_t T) {k : Nat}
    (h : ∀ e ∈ l, e.1.2 < k) : colsBelow l k = l.length := by
  simp only [colsBelow, List.countP_eq_length, decide_eq_true_eq]
  exact h

theorem colsBelow_mono {T : Type} (l : entry_map_t T) {j k : Nat} (h : j ≤ k) :
    colsBelow l j ≤ colsBelow l k := by
  induction h with
  | refl => exact le_refl _
  | step _ ih => rw [colsBelow_succ]; omega

/-- With every column populated, every pointer slot `k ≤ N` holds the number of
entries whose column is below `k`. -/
theorem ofEntries_ptr_full {T : Type} (N : Nat) (l : entry_map_t T) (mem : Fresh T)
    (hN : N < 2147483647) (hnnz : l.length < 2147483648)
    (hs : IsEntryMap l) (hr : InRange N l) (hp : ColsPopulated N l)
    {A : TCCSMatrix T} (hA : ofEntries N l mem = some A) :
    ∀ k, k ≤ N → A.colptr[k]? = some ((colsBelow l k : Nat) : Int) := by
  obtain ⟨-, hlast, hpop, -, -⟩ := ofEntries_ptr N l mem hN hnnz hr hs.cols_mono hA
  intro k hk
  rcases Nat.lt_or_ge k N with hlt | hge
  · exact hpop k hlt (hp k hlt)
  · have : k = N := by omega
    subst this
    rw [hlast, colsBelow_eq_length l (fun e he => (hr e he).2)]

end TCCSMatrix

/-! ## Conversions outside the `int` range -/

/-- The dimension `2^32 - 1` converts to `n = -1`: the pointer array has
`n + 1 = 0` slots and the write `colptr[0] = 0` is out of bounds. -/
theorem ofEntries_dimension_wraps :
    toInt 4294967295 = -1 ∧
    TCCSMatrix.ofEntries 4294967295 ([] : entry_map_t Int) staleMem = none ∧
    TCRSMatrix.ofEntries 4294967295 ([] : entry_map_t Int) staleMem = none := by
  refine ⟨by decide, ?_, ?_⟩ <;>
    simp [TCCSMatrix.ofEntries, TCRSMatrix.ofEntries, toInt, addInt, alloc, newArray, wrN]

/-- The dimension `2^31 - 1` converts to `INT_MAX`, for which the `int` sum
`n + 1` overflows. -/
theorem ofEntries_dimension_overflows :
    TCCSMatrix.ofEntries 2147483647 ([] : entry_map_t Int) staleMem = none ∧
    TCRSMatrix.ofEntries 2147483647 ([] : entry_map_t Int) staleMem = none := by
  constructor <;> simp [TCCSMatrix.ofEntries, TCRSMatrix.ofEntries, toInt, addInt]

/-- A row key `2^32 + 1` is stored as the row index `1`. -/
theorem ofEntries_index_wraps :
    (TCCSMatrix.ofEntries 1 [((4294967297, 0), (5 : Int))] staleMem).map (fun A => A.rowind) =
      some [1] := by
  decide

theorem map_bind_eq {α β γ : Type} (x : Option α) (f : α → Option β) (g : β → γ) :
    (x.bind f).map g = x.bind (fun a => (f a).map g) := by
  cases x <;> rfl

/-! ## CRS construction as the mirror image of CCS construction -/

namespace TCRSMatrix

theorem loop_eq_ccs {T : Type} (l : List (index_t × T)) :
    ∀ st : BuildState T, loop l st = TCCSMatrix.loop (transpose l) st := by
  induction l with
  | nil => intro st; rfl
  | cons e l ih =>
    intro st
    have hs : step st e = TCCSMatrix.step st (swapEntry e) := rfl
    simp only [loop, transpose, List.map_cons, TCCSMatrix.loop, hs]
    congr 1
    funext st1
    exact ih st1

theorem ofEntries_eq_ccs {T : Type} (N : Nat) (l : entry_map_t T) (mem : Fresh T) :
    ofEntries N l mem = (TCCSMatrix.ofEntries N (transpose l) mem).map
      (fun A => { n := A.n, colind := A.rowind, rowptr := A.colptr, values := A.values }) := by
  unfold ofEntries TCCSMatrix.ofEntries
  simp only [loop_eq_ccs, transpose, List.length_map, map_bind_eq, Option.map_some']

theorem isEntryMap_iff_transpose {T : Type} (l : entry_map_t T) :
    IsEntryMap l ↔ TCCSMatrix.IsEntryMap (transpose l) := by
  unfold IsEntryMap TCCSMatrix.IsEntryMap transpose
  rw [List.pairwise_map]
  rfl

end TCRSMatrix

theorem inRange_transpose {T : Type} {N : Nat} {l : entry_map_t T} (h : InRange N l) :
    InRange N (transpose l) := by
  intro e he
  simp only [transpose, List.mem_map] at he
  obtain ⟨x, hx, rfl⟩ := he
  exact ⟨(h x hx).2, (h x hx).1⟩

theorem length_transpose {T : Type} (l : entry_map_t T) : (transpose l).length = l.length := by
  simp [transpose]

theorem colsBelow_transpose {T : Type} (l : entry_map_t T) (k : Nat) :
    colsBelow (transpose l) k = rowsBelow l k := by
  simp only [colsBelow, rowsBelow, transpose, List.countP_map]
  rfl

/-! ## Counted loops -/

theorem forLoop_succ_last {σ : Type} (body : Int → σ → Option σ) (k : Nat) :
    ∀ (lo : Int) (s : σ),
      forLoop body (k + 1) lo s = (forLoop body k lo s).bind (body (lo + k)) := by
  induction k with
  | zero => intro lo s; simp [forLoop]
  | succ k ih =>
    intro lo s
    have h1 : forLoop body (k + 1 + 1) lo s = (body lo s).bind (forLoop body (k + 1) (lo + 1)) :=
      rfl
    have h2 : forLoop body (k + 1) lo s = (body lo s).bind (forLoop body k (lo + 1)) := rfl
    rw [h1, h2, Option.bind_assoc]
    congr 1
    funext s1
    rw [ih (lo + 1) s1]
    have hc : lo + 1 + (k : Int) = lo + ((k + 1 : Nat) : Int) := by omega
    rw [hc]

/-- A counted loop whose body at position `lo + d` acts like `f` on the `d`-th
element of `seg` is the fold of `f` over `seg`. -/
theorem forLoop_eq_foldOpt {σ β : Type} (body : Int → σ → Option σ) (f : σ → β → Option σ)
    (seg : List β) :
    ∀ (lo : Int) (s : σ),
      (∀ (d : Nat) (e : β) (s : σ), seg[d]? = some e → body (lo + d) s = f s e) →
      forLoop body seg.length lo s = foldOpt f seg s := by
  induction seg with
  | nil => intro lo s _; rfl
  | cons e es ih =>
    intro lo s h
    have h0 : body lo s = f s e := by
      have := h 0 e s (by simp)
      simpa using this
    show (body lo s).bind (forLoop body es.length (lo + 1)) = (f s e).bind (foldOpt f es)
    rw [h0]
    congr 1
    funext s1
    apply ih
    intro d x s2 hx
    have := h (d + 1) x s2 (by simpa using hx)
    rw [← this]
    congr 1
    omega

theorem foldOpt_append {σ β : Type} (f : σ → β → Option σ) (l1 l2 : List β) :
    ∀ s : σ, foldOpt f (l1 ++ l2) s = (foldOpt f l1 s).bind (foldOpt f l2) := by
  induction l1 with
  | nil => intro s; rfl
  | cons e es ih =>
    intro s
    show (f s e).bind (foldOpt f (es ++ l2)) = ((f s e).bind (foldOpt f es)).bind (foldOpt f l2)
    rw [Option.bind_assoc]
    congr 1
    funext s1
    exact ih s1

theorem foldOpt_snoc_map {β γ : Type} (g : β → γ) (seg : List β) :
    ∀ acc : List γ, foldOpt (fun acc e => some (acc ++ [g e])) seg acc = some (acc ++ seg.map g) := by
  induction seg with
  | nil => intro acc; simp [foldOpt]
  | cons e es ih =>
    intro acc
    show foldOpt (fun acc e => some (acc ++ [g e])) es (acc ++ [g e]) = _
    rw [ih]
    simp

/-! ## Lists in ascending order of a key -/

section Ascending

variable {β : Type} (κ : β → Nat)

/-- A list ascending in `κ` splits into the entries below `k` followed by the
entries at or above `k`. -/
theorem filter_lt_append_filter_ge {l : List β} (h : l.Pairwise (fun a b => κ a ≤ κ b))
    (k : Nat) :
    l.filter (fun e => decide (κ e < k)) ++ l.filter (fun e => decide (k ≤ κ e)) = l := by
  induction l with
  | nil => rfl
  | cons e l ih =>
    rw [List.pairwise_cons] at h
    by_cases hk : κ e < k
    · have hk2 : ¬ k ≤ κ e := by omega
      rw [List.filter_cons_of_pos (by simpa using hk),
        List.filter_cons_of_neg (by simpa using hk2), List.cons_append, ih h.2]
    · have h1 : (e :: l).filter (fun e => decide (κ e < k)) = [] := by
        rw [List.filter_eq_nil_iff]
        intro a ha
        rcases List.mem_cons.mp ha with rfl | ha
        · simpa using hk
        · have := h.1 a ha
          simp only [decide_eq_true_eq]; omega
      have h2 : (e :: l).filter (fun e => decide (k ≤ κ e)) = e :: l := by
        rw [List.filter_eq_self]
        intro a ha
        rcases List.mem_cons.mp ha with rfl | ha
        · simp only [decide_eq_true_eq]; omega
        · have := h.1 a ha
          simp only [decide_eq_true_eq]; omega
      rw [h1, h2, List.nil_append]

theorem filter_lt_succ {l : List β} (h : l.Pairwise (fun a b => κ a ≤ κ b)) (k : Nat) :
    l.filter (fun e => decide (κ e < k + 1)) =
      l.filter (fun e => decide (κ e < k)) ++ l.filter (fun e => decide (κ e = k)) := by
  have hm := filter_lt_append_filter_ge κ
    (List.Pairwise.filter (fun e => decide (κ e < k + 1)) h) k
  rw [List.filter_filter, List.filter_filter] at hm
  rw [← hm]
  congr 1
  · apply List.filter_congr
    intro x _
    by_cases hx : κ x < k
    · have : κ x < k + 1 := by omega
      simp [hx, this]
    · simp [hx]
  · apply List.filter_congr
    intro x _
    by_cases hx : κ x = k
    · simp [hx]
    · by_cases hx2 : k ≤ κ x
      · have : ¬ κ x < k + 1 := by omega
        simp [hx, hx2, this]
      · simp [hx, hx2]

/-- In a list ascending in `κ`, the entries with key `k` occupy the positions
starting at the number of entries with key below `k`. -/
theorem getElem?_add_of_filter_eq {l : List β} (h : l.Pairwise (fun a b => κ a ≤ κ b))
    (k d : Nat) (e : β) (he : (l.filter (fun e => decide (κ e = k)))[d]? = some e) :
    l[l.countP (fun e => decide (κ e < k)) + d]? = some e := by
  have hd : d < (l.filter (fun e => decide (κ e = k))).length := by
    rcases List.getElem?_eq_some.mp he with ⟨hd, -⟩
    exact hd
  have hdec := filter_lt_append_filter_ge κ h (k + 1)
  rw [filter_lt_succ κ h k, List.append_assoc] at hdec
  have : l[l.countP (fun e => decide (κ e < k)) + d]? =
      (l.filter (fun e => decide (κ e < k)) ++ (l.filter (fun e => decide (κ e = k)) ++
        l.filter (fun e => decide (k + 1 ≤ κ e))))[l.countP (fun e => decide (κ e < k)) + d]? := by
    rw [hdec]
  rw [this, List.getElem?_append_right (by rw [List.countP_eq_length_filter]; omega),
    List.countP_eq_length_filter, Nat.add_sub_cancel_left, List.getElem?_append_left hd, he]

theorem filter_lt_of_forall_lt {l : List β} {k : Nat} (h : ∀ e ∈ l, κ e < k) :
    l.filter (fun e => decide (κ e < k)) = l := by
  rw [List.filter_eq_self]
  intro a ha
  simpa using h a ha

end Ascending

/-! ## The storage built from a fully populated entry set -/

/-- For a sorted entry set with indices `< N` and every column populated the
CCS constructor returns the matrix whose pointer slot `k ≤ N` is the number of
entries with column below `k` and whose index and value arrays list the rows
and values in traversal order. -/
theorem ccs_storage {T : Type} (N : Nat) (l : entry_map_t T) (mem : Fresh T)
    (hN : N < 2147483647) (hnnz : l.length < 2147483648)
    (hs : TCCSMatrix.IsEntryMap l) (hr : InRange N l) (hp : ColsPopulated N l) :
    ∃ A, TCCSMatrix.ofEntries N l mem = some A ∧ A.n = (N : Int) ∧
      (∀ k, k ≤ N → A.colptr[k]? = some ((colsBelow l k : Nat) : Int)) ∧
      A.rowind = l.map (fun e => (e.1.1 : Int)) ∧ A.values = l.map (fun e => e.2) := by
  obtain ⟨A, st, hA, -, hn, -, -, hri, hv⟩ := TCCSMatrix.ofEntries_arrays N l mem hN hnnz hr
  exact ⟨A, hA, hn, TCCSMatrix.ofEntries_ptr_full N l mem hN hnnz hs hr hp hA, hri, hv⟩

theorem toNat_colsBelow_sub {T : Type} (l : entry_map_t T) (k : Nat) :
    (((colsBelow l (k + 1) : Nat) : Int) - ((colsBelow l k : Nat) : Int)).toNat =
      (l.filter (fun e => decide (e.1.2 = k))).length := by
  rw [TCCSMatrix.colsBelow_succ, ← List.countP_eq_length_filter]
  omega

theorem column_eq_filter {T : Type} (N : Nat) (l : entry_map_t T) (A : TCCSMatrix T)
    (hmono : l.Pairwise (fun a b => a.1.2 ≤ b.1.2))
    (hptr : ∀ k, k ≤ N → A.colptr[k]? = some ((colsBelow l k : Nat) : Int))
    (hri : A.rowind = l.map (fun e => (e.1.1 : Int))) (hv : A.values = l.map (fun e => e.2))
    (k : Nat) (hk : k < N) :
    A.column k =
      some ((l.filter (fun e => decide (e.1.2 = k))).map (fun e => ((e.1.1 : Int), e.2))) := by
  unfold TCCSMatrix.column
  have hc : (k : Int) + 1 = ((k + 1 : Nat) : Int) := by omega
  rw [hc, rdI_natCast, rdI_natCast, hptr k (by omega), hptr (k + 1) (by omega)]
  simp only [Option.some_bind]
  rw [toNat_colsBelow_sub,
    forLoop_eq_foldOpt _ (fun acc e => some (acc ++ [((e.1.1 : Int), e.2)])) _ _ _,
    foldOpt_snoc_map, List.nil_append]
  intro d e acc he
  have hl := getElem?_add_of_filter_eq (fun e : index_t × T => e.1.2) hmono k d e he
  have hcast : ((colsBelow l k : Nat) : Int) + (d : Int) = ((colsBelow l k + d : Nat) : Int) := by
    omega
  have hl2 : l[colsBelow l k + d]? = some e := hl
  rw [hcast, rdI_natCast, rdI_natCast, hri, hv, List.getElem?_map, List.getElem?_map, hl2]
  rfl

/-! ## The multiply kernels -/

/-- A loop `for (i = 0; i < k; i++) Y[i] = g i Y[i]` updates the first `k`
slots in place. -/
theorem forLoop_update {α : Type} (g : Nat → α → α) (body : Int → List α → Option (List α))
    (n : Nat)
    (hbody : ∀ i : Nat, i < n → ∀ Z : List α,
      body (i : Int) Z = (Z[i]?).bind fun y => wrN Z i (g i y))
    (Y : List α) :
    ∀ k, k ≤ n → k ≤ Y.length → ∃ Y2, forLoop body k 0 Y = some Y2 ∧ Y2.length = Y.length ∧
      ∀ i, Y2[i]? = if i < k then (Y[i]?).map (g i) else Y[i]? := by
  intro k
  induction k with
  | zero => intro _ _; exact ⟨Y, rfl, rfl, by simp⟩
  | succ k ih =>
    intro hk hkY
    obtain ⟨Yk, hYk, hlen, hpt⟩ := ih (by omega) (by omega)
    obtain ⟨y, hy⟩ : ∃ y, Y[k]? = some y := ⟨_, List.getElem?_eq_getElem (by omega)⟩
    have hkk : Yk[k]? = some y := by rw [hpt k, if_neg (by omega), hy]
    refine ⟨Yk.set k (g k y), ?_, by rw [List.length_set, hlen], ?_⟩
    · rw [forLoop_succ_last, hYk, Option.some_bind, zero_add, hbody k (by omega) Yk, hkk,
        Option.some_bind, wrN_of_lt (by omega)]
    · intro i
      by_cases hik : i = k
      · subst hik
        rw [List.getElem?_set, if_pos rfl, if_pos (by omega), if_pos (by omega), hy]
        rfl
      · rw [List.getElem?_set_ne (Ne.symm hik), hpt i]
        by_cases hlt : i < k
        · rw [if_pos hlt, if_pos (by omega)]
        · rw [if_neg hlt, if_neg (by omega)]

theorem rowsBelow_succ {T : Type} (l : entry_map_t T) (k : Nat) :
    rowsBelow l (k + 1) = rowsBelow l k + l.countP (fun e => decide (e.1.1 = k)) := by
  have h := TCCSMatrix.colsBelow_succ (transpose l) k
  rw [colsBelow_transpose, colsBelow_transpose] at h
  rw [h, transpose, List.countP_map]
  rfl

theorem toNat_rowsBelow_sub {T : Type} (l : entry_map_t T) (k : Nat) :
    (((rowsBelow l (k + 1) : Nat) : Int) - ((rowsBelow l k : Nat) : Int)).toNat =
      (l.filter (fun e => decide (e.1.1 = k))).length := by
  rw [rowsBelow_succ, ← List.countP_eq_length_filter]
  omega

section Kernels

variable {T : Type} [CommRing T]

/-- The scatter updates of a list of entries add to each `Y[i]` the terms
`scale_AX * X[j] * v` of the entries `((i, j), v)` in the list. -/
theorem foldOpt_scatter (sAX : T) (X : List T) (l : List (index_t × T)) :
    ∀ Y : List T, (∀ e ∈ l, e.1.1 < Y.length ∧ e.1.2 < X.length) →
      ∃ Y2, foldOpt (scatter sAX X) l Y = some Y2 ∧ Y2.length = Y.length ∧
        ∀ i, i < Y.length → Y2[i]? = some (Y.getD i 0 +
          ((l.filter (fun e => decide (e.1.1 = i))).map
            (fun e => sAX * X.getD e.1.2 0 * e.2)).sum) := by
  induction l with
  | nil =>
    intro Y _
    refine ⟨Y, rfl, rfl, fun i hi => ?_⟩
    simp [List.getElem?_eq_getElem hi]
  | cons e l ih =>
    intro Y h
    obtain ⟨hrow, hcol⟩ := h e (List.mem_cons_self _ _)
    have hstep : scatter sAX X Y e =
        some (Y.set e.1.1 (Y.getD e.1.1 0 + sAX * X.getD e.1.2 0 * e.2)) := by
      unfold scatter
      rw [List.getElem?_eq_getElem hcol, List.getElem?_eq_getElem hrow, Option.some_bind,
        Option.some_bind, wrN_of_lt hrow, List.getD_eq_getElem _ _ hcol,
        List.getD_eq_getElem _ _ hrow]
    obtain ⟨Y2, hY2, hlen, hpt⟩ := ih (Y.set e.1.1 (Y.getD e.1.1 0 + sAX * X.getD e.1.2 0 * e.2))
      (by intro x hx; rw [List.length_set]; exact h x (List.mem_cons_of_mem _ hx))
    rw [List.length_set] at hlen hpt
    refine ⟨Y2, ?_, hlen, ?_⟩
    · show (scatter sAX X Y e).bind (foldOpt (scatter sAX X) l) = some Y2
      rw [hstep, Option.some_bind, hY2]
    · intro i hi
      rw [hpt i hi]
      congr 1
      by_cases hie : e.1.1 = i
      · subst hie
        rw [List.filter_cons_of_pos (by simp), List.map_cons, List.sum_cons,
          List.getD_eq_getElem _ _ (by rw [List.length_set]; exact hi), List.getElem_set_self]
        ring
      · rw [List.filter_cons_of_neg (by simpa using hie),
          List.getD_eq_getElem _ _ (by rw [List.length_set]; exact hi),
          List.getElem_set_ne hie, List.getD_eq_getElem _ _ hi]

theorem sum_scaled_eq_rowDot (sAX : T) (X : List T) (l : entry_map_t T) (i : Nat) :
    ((l.filter (fun e => decide (e.1.1 = i))).map (fun e => sAX * X.getD e.1.2 0 * e.2)).sum =
      sAX * rowDot l X i := by
  unfold rowDot
  rw [← List.sum_map_mul_left]
  congr 1
  apply List.map_congr_left
  intro e _
  ring

/-- The body of the CCS kernel's outer loop for column `k` performs the
scatter updates of the entries of column `k`, in traversal order. -/
theorem ccs_column_pass (N : Nat) (l : entry_map_t T) (A : TCCSMatrix T)
    (hmono : l.Pairwise (fun a b => a.1.2 ≤ b.1.2))
    (hptr : ∀ k, k ≤ N → A.colptr[k]? = some ((colsBelow l k : Nat) : Int))
    (hri : A.rowind = l.map (fun e => (e.1.1 : Int))) (hv : A.values = l.map (fun e => e.2))
    (X : List T) (sAX : T) (k : Nat) (hk : k < N) (Z : List T) :
    ((rdI A.colptr (k : Int)).bind fun lo =>
      (rdI A.colptr ((k : Int) + 1)).bind fun hi =>
      forLoop (fun ip Y =>
        (rdI A.rowind ip).bind fun i =>
        (rdI X (k : Int)).bind fun x =>
        (rdI A.values ip).bind fun v =>
        (rdI Y i).bind fun y =>
        wrI Y i (y + sAX * x * v)) (hi - lo).toNat lo Z) =
      foldOpt (scatter sAX X) (l.filter (fun e => decide (e.1.2 = k))) Z := by
  have hc : (k : Int) + 1 = ((k + 1 : Nat) : Int) := by omega
  rw [hc, rdI_natCast, rdI_natCast, hptr k (by omega), hptr (k + 1) (by omega)]
  simp only [Option.some_bind]
  rw [toNat_colsBelow_sub]
  apply forLoop_eq_foldOpt
  intro d e Y he
  have hl : l[colsBelow l k + d]? = some e :=
    getElem?_add_of_filter_eq (fun e : index_t × T => e.1.2) hmono k d e he
  have hek : e.1.2 = k := by simpa using (List.mem_filter.mp (List.getElem?_mem he)).2
  have hcast : ((colsBelow l k : Nat) : Int) + (d : Int) = ((colsBelow l k + d : Nat) : Int) := by
    omega
  simp only [hcast, rdI_natCast, wrI_natCast, hri, hv, List.getElem?_map, hl,
    Option.map_some', Option.some_bind]
  unfold scatter
  rw [hek]

theorem ccs_column_passes (N : Nat) (l : entry_map_t T) (A : TCCSMatrix T)
    (hmono : l.Pairwise (fun a b => a.1.2 ≤ b.1.2))
    (hptr : ∀ k, k ≤ N → A.colptr[k]? = some ((colsBelow l k : Nat) : Int))
    (hri : A.rowind = l.map (fun e => (e.1.1 : Int))) (hv : A.values = l.map (fun e => e.2))
    (X : List T) (sAX : T) :
    ∀ k, k ≤ N → ∀ Z : List T,
      forLoop (fun j Y =>
        (rdI A.colptr j).bind fun lo =>
        (rdI A.colptr (j + 1)).bind fun hi =>
        forLoop (fun ip Y =>
          (rdI A.rowind ip).bind fun i =>
          (rdI X j).bind fun x =>
          (rdI A.values ip).bind fun v =>
          (rdI Y i).bind fun y =>
          wrI Y i (y + sAX * x * v)) (hi - lo).toNat lo Y) k 0 Z =
      foldOpt (scatter sAX X) (l.filter (fun e => decide (e.1.2 < k))) Z := by
  intro k
  induction k with
  | zero =>
    intro _ Z
    have : l.filter (fun e => decide (e.1.2 < 0)) = [] := by
      rw [List.filter_eq_nil_iff]; intro a _; simp
    rw [this]
    rfl
  | succ k ih =>
    intro hk Z
    rw [forLoop_succ_last, ih (by omega) Z, zero_add,
      filter_lt_succ (fun e : index_t × T => e.1.2) hmono k, foldOpt_append]
    congr 1
    funext Z1
    exact ccs_column_pass N l A hmono hptr hri hv X sAX k (by omega) Z1

/-- The CCS kernel on the storage of a fully populated entry set computes
`Y := scale_Y*Y + scale_AX*A*X`. -/
theorem ccs_multMV_storage (N : Nat) (l : entry_map_t T) (A : TCCSMatrix T)
    (hmono : l.Pairwise (fun a b => a.1.2 ≤ b.1.2)) (hr : InRange N l) (hn : A.n = (N : Int))
    (hptr : ∀ k, k ≤ N → A.colptr[k]? = some ((colsBelow l k : Nat) : Int))
    (hri : A.rowind = l.map (fun e => (e.1.1 : Int))) (hv : A.values = l.map (fun e => e.2))
    (X Y : List T) (hX : X.length = N) (hY : Y.length = N) (sAX sY : T) :
    ∃ Y2, A.MultMV X Y sAX sY = some Y2 ∧ Y2.length = N ∧
      ∀ i, i < N → Y2[i]? = some (sY * Y.getD i 0 + sAX * rowDot l X i) := by
  obtain ⟨Y1, h1, hlen1, hpt1⟩ := forLoop_update (fun _ y => y * sY)
    (fun j Y => (rdI Y j).bind fun y => wrI Y j (y * sY)) N
    (by intro i _ Z; simp only [rdI_natCast, wrI_natCast]) Y N (le_refl _) (by omega)
  obtain ⟨Y2, h2, hlen2, hpt2⟩ := foldOpt_scatter sAX X l Y1
    (by intro e he; rw [hlen1, hY, hX]; exact hr e he)
  refine ⟨Y2, ?_, by rw [hlen2, hlen1, hY], ?_⟩
  · unfold TCCSMatrix.MultMV
    rw [hn, Int.toNat_ofNat, h1, Option.some_bind,
      ccs_column_passes N l A hmono hptr hri hv X sAX N (le_refl _) Y1,
      filter_lt_of_forall_lt (fun e : index_t × T => e.1.2) (fun e he => (hr e he).2), h2]
  · intro i hi
    rw [hpt2 i (by omega), sum_scaled_eq_rowDot]
    have hYi : Y1.getD i 0 = Y.getD i 0 * sY := by
      have := hpt1 i
      rw [if_pos hi, List.getElem?_eq_getElem (by omega : i < Y.length)] at this
      rw [List.getD_eq_getElem?_getD, this, List.getD_eq_getElem _ _ (by omega : i < Y.length)]
      rfl
    rw [hYi, mul_comm]

/-- The gather updates of a list of entries add to `sum` the terms
`scale_AX * X[j] * v` of the entries in the list. -/
theorem foldOpt_gather (sAX : T) (X : List T) (l : List (index_t × T)) :
    ∀ s : T, (∀ e ∈ l, e.1.2 < X.length) →
      foldOpt (gather sAX X) l s =
        some (s + (l.map (fun e => sAX * X.getD e.1.2 0 * e.2)).sum) := by
  induction l with
  | nil => intro s _; simp [foldOpt]
  | cons e l ih =>
    intro s h
    have hcol := h e (List.mem_cons_self _ _)
    have hstep : gather sAX X s e = some (s + sAX * X.getD e.1.2 0 * e.2) := by
      unfold gather
      rw [List.getElem?_eq_getElem hcol, Option.some_bind, List.getD_eq_getElem _ _ hcol]
    show (gather sAX X s e).bind (foldOpt (gather sAX X) l) = _
    rw [hstep, Option.some_bind, ih _ (fun x hx => h x (List.mem_cons_of_mem _ hx)),
      List.map_cons, List.sum_cons, add_assoc]

/-- The body of the CRS kernel's loop for row `i` replaces `Y[i]` by
`scale_Y*Y[i] + scale_AX*sum`, where `sum` accumulates the terms
`scale_AX * X[j] * v` of the entries of row `i`. -/
theorem crs_row_pass (N : Nat) (l : entry_map_t T) (B : TCRSMatrix T)
    (hmono : l.Pairwise (fun a b => a.1.1 ≤ b.1.1)) (hr : InRange N l)
    (hptr : ∀ k, k ≤ N → B.rowptr[k]? = some ((rowsBelow l k : Nat) : Int))
    (hci : B.colind = l.map (fun e => (e.1.2 : Int))) (hv : B.values = l.map (fun e => e.2))
    (X : List T) (hX : X.length = N) (sAX sY : T) (i : Nat) (hi : i < N) (Z : List T) :
    ((rdI B.rowptr (i : Int)).bind fun lo =>
      (rdI B.rowptr ((i : Int) + 1)).bind fun hi =>
      (forLoop (fun jp sum =>
        (rdI B.colind jp).bind fun j =>
        (rdI X j).bind fun x =>
        (rdI B.values jp).bind fun v =>
        some (sum + sAX * x * v)) (hi - lo).toNat lo 0).bind fun sum =>
      (rdI Z (i : Int)).bind fun y =>
      wrI Z (i : Int) (sY * y + sAX * sum)) =
      (Z[i]?).bind fun y => wrN Z i (sY * y + sAX * (sAX * rowDot l X i)) := by
  have hc : (i : Int) + 1 = ((i + 1 : Nat) : Int) := by omega
  rw [hc, rdI_natCast, rdI_natCast, hptr i (by omega), hptr (i + 1) (by omega)]
  simp only [Option.some_bind]
  rw [toNat_rowsBelow_sub, forLoop_eq_foldOpt _ (gather sAX X) _ _ _,
    foldOpt_gather sAX X _ 0, Option.some_bind, zero_add, sum_scaled_eq_rowDot]
  · simp only [rdI_natCast, wrI_natCast]
  · intro e he
    rw [hX]
    exact (hr e (List.mem_filter.mp he).1).2
  · intro d e sum he
    have hl : l[rowsBelow l i + d]? = some e :=
      getElem?_add_of_filter_eq (fun e : index_t × T => e.1.1) hmono i d e he
    have hcast : ((rowsBelow l i : Nat) : Int) + (d : Int) = ((rowsBelow l i + d : Nat) : Int) := by
      omega
    simp only [hcast, rdI_natCast, hci, hv, List.getElem?_map, hl, Option.map_some',
      Option.some_bind]
    rfl

/-- The CRS kernel on the storage of a fully populated entry set computes
`Y := scale_Y*Y + scale_AX*(scale_AX*A*X)`: `scale_AX` multiplies every term
of the row sum and the row sum again. -/
theorem crs_multMV_storage (N : Nat) (l : entry_map_t T) (B : TCRSMatrix T)
    (hmono : l.Pairwise (fun a b => a.1.1 ≤ b.1.1)) (hr : InRange N l) (hn : B.n = (N : Int))
    (hptr : ∀ k, k ≤ N → B.rowptr[k]? = some ((rowsBelow l k : Nat) : Int))
    (hci : B.colind = l.map (fun e => (e.1.2 : Int))) (hv : B.values = l.map (fun e => e.2))
    (X Y : List T) (hX : X.length = N) (hY : Y.length = N) (sAX sY : T) :
    ∃ Y2, B.MultMV X Y sAX sY = some Y2 ∧ Y2.length = N ∧
      ∀ i, i < N → Y2[i]? = some (sY * Y.getD i 0 + sAX * (sAX * rowDot l X i)) := by
  obtain ⟨Y2, h2, hlen2, hpt2⟩ := forLoop_update
    (fun i y => sY * y + sAX * (sAX * rowDot l X i))
    (fun i Y =>
      (rdI B.rowptr i).bind fun lo =>
      (rdI B.rowptr (i + 1)).bind fun hi =>
      (forLoop (fun jp sum =>
        (rdI B.colind jp).bind fun j =>
        (rdI X j).bind fun x =>
        (rdI B.values jp).bind fun v =>
        some (sum + sAX * x * v)) (hi - lo).toNat lo 0).bind fun sum =>
      (rdI Y i).bind fun y =>
      wrI Y i (sY * y + sAX * sum)) N
    (fun i hi Z => crs_row_pass N l B hmono hr hptr hci hv X hX sAX sY i hi Z)
    Y N (le_refl _) (by omega)
  refine ⟨Y2, ?_, by rw [hlen2, hY], ?_⟩
  · unfold TCRSMatrix.MultMV
    rw [hn, Int.toNat_ofNat]
    exact h2
  · intro i hi
    rw [hpt2 i, if_pos hi, List.getElem?_eq_getElem (by omega : i < Y.length),
      List.getD_eq_getElem _ _ (by omega : i < Y.length)]
    rfl

end Kernels

/-- For a sorted entry set with indices `< N` and every row populated the CRS
constructor returns the matrix whose pointer slot `k ≤ N` is the number of
entries with row below `k` and whose index and value arrays list the columns
and values in traversal order. -/
theorem crs_storage {T : Type} (N : Nat) (l : entry_map_t T) (mem : Fresh T)
    (hN : N < 2147483647) (hnnz : l.length < 2147483648)
    (hs : TCRSMatrix.IsEntryMap l) (hr : InRange N l) (hp : RowsPopulated N l) :
    ∃ B, TCRSMatrix.ofEntries N l mem = some B ∧ B.n = (N : Int) ∧
      (∀ k, k ≤ N → B.rowptr[k]? = some ((rowsBelow l k : Nat) : Int)) ∧
      B.colind = l.map (fun e => (e.1.2 : Int)) ∧ B.values = l.map (fun e => e.2) := by
  have hpt : ColsPopulated N (transpose l) := by
    intro k hk
    obtain ⟨e, he, hek⟩ := hp k hk
    exact ⟨swapEntry e, List.mem_map_of_mem _ he, hek⟩
  obtain ⟨A, hA, hn, hptr, hri, hv⟩ := ccs_storage N (transpose l) mem hN
    (by rw [length_transpose]; exact hnnz)
    ((TCRSMatrix.isEntryMap_iff_transpose l).mp hs) (inRange_transpose hr) hpt
  rw [TCRSMatrix.ofEntries_eq_ccs, hA]
  refine ⟨_, rfl, hn, ?_, ?_, ?_⟩
  · intro k hk
    rw [← colsBelow_transpose]
    exact hptr k hk
  · show A.rowind = _
    rw [hri, transpose, List.map_map]
    rfl
  · show A.values = _
    rw [hv, transpose, List.map_map]
    rfl

theorem TCRSMatrix.IsEntryMap.rows_mono {T : Type} {l : entry_map_t T}
    (h : TCRSMatrix.IsEntryMap l) : l.Pairwise (fun a b => a.1.1 ≤ b.1.1) := by
  have h2 := ((TCRSMatrix.isEntryMap_iff_transpose l).mp h).cols_mono
  rw [transpose, List.pairwise_map] at h2
  exact h2

theorem rowDot_perm {T : Type} [CommRing T] {l1 l2 : entry_map_t T} (h : l1.Perm l2)
    (X : List T) (i : Nat) : rowDot l1 X i = rowDot l2 X i := by
  unfold rowDot
  exact ((h.filter _).map _).sum_eq

/-! ## Multiplication -/

/-- C2. For `N < 2^31 - 1` (so that `n + 1` is an `int`) and fewer than `2^31` entries,
a sorted entry set `E` (unique keys) with indices `< N` and every column
populated, `A = TCCSMatrix(N, E)`, vectors `X`, `Y` of length `N` and scalars
in a commutative ring, `MultMV(A, X, Y, scale_AX, scale_Y)` returns a vector
of length `N` with
`Y2[i] = scale_Y*Y[i] + scale_AX * Σ_{(i,j) ∈ E} E(i,j)*X[j]` for every `i < N`. -/
theorem C2_ccs_multiply {T : Type} [CommRing T] (N : Nat) (l : entry_map_t T) (mem : Fresh T)
    (hN : N < 2147483647) (hnnz : l.length < 2147483648)
    (hs : TCCSMatrix.IsEntryMap l) (hr : InRange N l) (hp : ColsPopulated N l)
    (X Y : List T) (hX : X.length = N) (hY : Y.length = N) (scale_AX scale_Y : T) :
    ∃ A, TCCSMatrix.ofEntries N l mem = some A ∧
      ∃ Y2, A.MultMV X Y scale_AX scale_Y = some Y2 ∧ Y2.length = N ∧
        ∀ i, i < N → Y2[i]? = some (scale_Y * Y.getD i 0 + scale_AX * rowDot l X i) := by
  obtain ⟨A, hA, hn, hptr, hri, hv⟩ := ccs_storage N l mem hN hnnz hs hr hp
  exact ⟨A, hA, ccs_multMV_storage N l A hs.cols_mono hr hn hptr hri hv X Y hX hY
    scale_AX scale_Y⟩

theorem C2_ccs_multiply_witness :
    ∃ A, TCCSMatrix.ofEntries 2 [((0, 0), 2), ((1, 0), 1), ((1, 1), 3)] staleMem = some A ∧
      ∃ Y2, A.MultMV [10, 100] [5, 6] 7 3 = some Y2 ∧ Y2.length = 2 ∧
        ∀ i, i < 2 → Y2[i]? = some (3 * ([5, 6] : List Int).getD i 0 +
          7 * rowDot [((0, 0), 2), ((1, 0), 1), ((1, 1), 3)] [10, 100] i) :=
  C2_ccs_multiply 2 [((0, 0), 2), ((1, 0), 1), ((1, 1), 3)] staleMem (by decide) (by decide)
    (by unfold TCCSMatrix.IsEntryMap; decide) (by unfold InRange; decide)
    (by unfold ColsPopulated; decide) [10, 100] [5, 6] rfl rfl 7 3

/-- C3, at the failing input. For `N = 1`, the entry `(0,0) = 1`, `X = [1]`,
`Y = [0]`, `scale_AX = 2` and `scale_Y = 0` the CRS kernel returns `[4]`,
whereas `scale_Y*Y[0] + Σ scale_AX*X[j]*E(0,j)` is `2`: `scale_AX` is applied
to every term of the row sum and then to the sum again. -/
theorem C3_crs_scale_applied_twice :
    ((TCRSMatrix.ofEntries 1 [((0, 0), (1 : Int))] staleMem).bind
      fun B => B.MultMV [1] [0] 2 0) = some [4] ∧
    (0 : Int) * ([0] : List Int).getD 0 0 +
      (([((0, 0), (1 : Int))] : entry_map_t Int).map
        (fun e => 2 * ([1] : List Int).getD e.1.2 0 * e.2)).sum = 2 := by
  decide

/-- C4. For `N < 2^31 - 1` (so that `n + 1` is an `int`) and fewer than `2^31` entries,
an entry set with unique keys, indices `< N` and at least one entry in every row
and in every column, traversed in CCS order (`lc`) and in CRS order (`lr`),
and every `X` and initial `Y` of length `N`, the CCS kernel on
`TCCSMatrix(N, E)` and the CRS kernel on `TCRSMatrix(N, E)` with
`scale_AX = 1` and `scale_Y = 0` return the same vector. -/
theorem C4_multiply_identity {T : Type} [CommRing T] (N : Nat) (lc lr : entry_map_t T)
    (memc memr : Fresh T) (hN : N < 2147483647) (hnnz : lc.length < 2147483648)
    (hperm : lc.Perm lr)
    (hsc : TCCSMatrix.IsEntryMap lc) (hsr : TCRSMatrix.IsEntryMap lr)
    (hr : InRange N lc) (hpc : ColsPopulated N lc) (hpr : RowsPopulated N lc)
    (X Y : List T) (hX : X.length = N) (hY : Y.length = N) :
    ∃ A B Y2, TCCSMatrix.ofEntries N lc memc = some A ∧
      TCRSMatrix.ofEntries N lr memr = some B ∧
      A.MultMV X Y 1 0 = some Y2 ∧ B.MultMV X Y 1 0 = some Y2 := by
  have hrr : InRange N lr := fun e he => hr e (hperm.mem_iff.mpr he)
  have hprr : RowsPopulated N lr := by
    intro k hk
    obtain ⟨e, he, hek⟩ := hpr k hk
    exact ⟨e, hperm.mem_iff.mp he, hek⟩
  obtain ⟨A, hA, hn, hptr, hri, hv⟩ := ccs_storage N lc memc hN hnnz hsc hr hpc
  obtain ⟨B, hB, hnB, hptrB, hci, hvB⟩ := crs_storage N lr memr hN
    (by rw [← hperm.length_eq]; exact hnnz) hsr hrr hprr
  obtain ⟨Yc, hYc, hlenc, hptc⟩ := ccs_multMV_storage N lc A hsc.cols_mono hr hn hptr hri hv
    X Y hX hY 1 0
  obtain ⟨Yr, hYr, hlenr, hptr2⟩ := crs_multMV_storage N lr B hsr.rows_mono hrr hnB hptrB hci hvB
    X Y hX hY 1 0
  have heq : Yr = Yc := by
    apply List.ext_getElem?
    intro i
    by_cases hi : i < N
    · rw [hptc i hi, hptr2 i hi, rowDot_perm hperm X i, one_mul]
    · rw [List.getElem?_eq_none (by omega), List.getElem?_eq_none (by omega)]
  rw [heq] at hYr
  exact ⟨A, B, Yc, hA, hB, hYc, hYr⟩

theorem C4_multiply_identity_witness :
    ∃ A B Y2, TCCSMatrix.ofEntries 2 [((1, 0), 1), ((0, 1), 2), ((1, 1), 3)] staleMem = some A ∧
      TCRSMatrix.ofEntries 2 [((0, 1), 2), ((1, 0), 1), ((1, 1), 3)] staleMem = some B ∧
      A.MultMV [10, 100] [5, 6] (1 : Int) 0 = some Y2 ∧
      B.MultMV [10, 100] [5, 6] (1 : Int) 0 = some Y2 :=
  C4_multiply_identity 2 [((1, 0), 1), ((0, 1), 2), ((1, 1), 3)]
    [((0, 1), 2), ((1, 0), 1), ((1, 1), 3)] staleMem staleMem (by decide) (by decide)
    (by decide)
    (by unfold TCCSMatrix.IsEntryMap; decide) (by unfold TCRSMatrix.IsEntryMap; decide)
    (by unfold InRange; decide) (by unfold ColsPopulated; decide)
    (by unfold RowsPopulated; decide) [10, 100] [5, 6] rfl rfl

/-! ## Construction invariants -/

theorem index_comp_row_lt {a b : index_t} (h : TCCSMatrix.index_comp_t a b = true)
    (hc : a.2 = b.2) : a.1 < b.1 := by
  unfold TCCSMatrix.index_comp_t at h
  have h1 : ¬ a.2 < b.2 := by omega
  have h2 : ¬ a.2 > b.2 := by omega
  simpa [h1, h2] using h

/-- C1. For `N < 2^31 - 1` (so that `n + 1` is an `int`) and fewer than `2^31` entries,
and a sorted entry set (unique keys) with indices `< N` and at least one entry in
every column, the matrix built by the CCS constructor satisfies,
for every column `k < N`: the pairs `(rowind[p], values[p])` for `p` in
`[colptr[k], colptr[k+1])` are exactly the (row, value) pairs of the entries
whose column is `k`, and they are listed in strictly ascending row order. -/
theorem C1_ccs_readback {T : Type} (N : Nat) (l : entry_map_t T) (mem : Fresh T)
    (hN : N < 2147483647) (hnnz : l.length < 2147483648)
    (hs : TCCSMatrix.IsEntryMap l) (hr : InRange N l) (hp : ColsPopulated N l) :
    ∃ A, TCCSMatrix.ofEntries N l mem = some A ∧
      ∀ k, k < N →
        A.column k = some ((l.filter (fun e => decide (e.1.2 = k))).map
          (fun e => ((e.1.1 : Int), e.2))) ∧
        ((l.filter (fun e => decide (e.1.2 = k))).map
          (fun e => ((e.1.1 : Int), e.2))).Pairwise (fun a b => a.1 < b.1) := by
  obtain ⟨A, hA, -, hptr, hri, hv⟩ := ccs_storage N l mem hN hnnz hs hr hp
  refine ⟨A, hA, fun k hk => ⟨column_eq_filter N l A hs.cols_mono hptr hri hv k hk, ?_⟩⟩
  rw [List.pairwise_map]
  have hf : (l.filter (fun e => decide (e.1.2 = k))).Pairwise
      (fun a b => TCCSMatrix.index_comp_t a.1 b.1 = true) :=
    List.Pairwise.filter _ hs
  refine List.Pairwise.imp_of_mem ?_ hf
  intro a b ha hb hab
  have hak : a.1.2 = k := by simpa using (List.mem_filter.mp ha).2
  have hbk : b.1.2 = k := by simpa using (List.mem_filter.mp hb).2
  have := index_comp_row_lt hab (by rw [hak, hbk])
  show (a.1.1 : Int) < (b.1.1 : Int)
  exact_mod_cast this

theorem C1_ccs_readback_witness :
    ∃ A, TCCSMatrix.ofEntries 2 [((0, 0), 2), ((1, 0), 1), ((1, 1), 3)] staleMem = some A ∧
      ∀ k, k < 2 →
        A.column k = some ((([((0, 0), 2), ((1, 0), 1), ((1, 1), 3)] : entry_map_t Int).filter
          (fun e => decide (e.1.2 = k))).map (fun e => ((e.1.1 : Int), e.2))) ∧
        ((([((0, 0), 2), ((1, 0), 1), ((1, 1), 3)] : entry_map_t Int).filter
          (fun e => decide (e.1.2 = k))).map
          (fun e => ((e.1.1 : Int), e.2))).Pairwise (fun a b => a.1 < b.1) :=
  C1_ccs_readback 2 [((0, 0), 2), ((1, 0), 1), ((1, 1), 3)] staleMem (by decide) (by decide)
    (by unfold TCCSMatrix.IsEntryMap; decide) (by unfold InRange; decide)
    (by unfold ColsPopulated; decide)

/-- C5. For `N < 2^31 - 1` (so that `n + 1` is an `int`) and fewer than `2^31` entries:
after construction from a sorted entry set with indices `< N` (empty slices
and the empty entry set included) the pointer array has `pointer[0] == 0` and
`pointer[N] == nnz`, for the CCS constructor and for the CRS constructor. -/
theorem C5_pointer_endpoints {T : Type} (N : Nat) (lc lr : entry_map_t T) (memc memr : Fresh T)
    (hN : N < 2147483647) (hnc : lc.length < 2147483648) (hnr : lr.length < 2147483648)
    (hsc : TCCSMatrix.IsEntryMap lc) (hrc : InRange N lc)
    (hsr : TCRSMatrix.IsEntryMap lr) (hrr : InRange N lr) :
    (∃ A, TCCSMatrix.ofEntries N lc memc = some A ∧
      A.colptr[0]? = some 0 ∧ A.colptr[N]? = some (lc.length : Int)) ∧
    (∃ B, TCRSMatrix.ofEntries N lr memr = some B ∧
      B.rowptr[0]? = some 0 ∧ B.rowptr[N]? = some (lr.length : Int)) := by
  have key : ∀ (l : entry_map_t T) (mem : Fresh T), l.length < 2147483648 →
      TCCSMatrix.IsEntryMap l → InRange N l →
      ∃ A, TCCSMatrix.ofEntries N l mem = some A ∧
        A.colptr[0]? = some 0 ∧ A.colptr[N]? = some (l.length : Int) := by
    intro l mem hnnz hs hr
    obtain ⟨A, st, hA, -⟩ := TCCSMatrix.ofEntries_arrays N l mem hN hnnz hr
    obtain ⟨-, hlast, -, -, h0⟩ := TCCSMatrix.ofEntries_ptr N l mem hN hnnz hr hs.cols_mono hA
    refine ⟨A, hA, ?_, hlast⟩
    rcases Nat.eq_zero_or_pos N with hz | hpos
    · subst hz
      cases l with
      | nil => simpa using hlast
      | cons e l => exact absurd (hr e (List.mem_cons_self _ _)).2 (Nat.not_lt_zero _)
    · exact h0 hpos
  refine ⟨key lc memc hnc hsc hrc, ?_⟩
  obtain ⟨A, hA, h0, hlast⟩ := key (transpose lr) memr (by rw [length_transpose]; exact hnr)
    ((TCRSMatrix.isEntryMap_iff_transpose lr).mp hsr) (inRange_transpose hrr)
  rw [TCRSMatrix.ofEntries_eq_ccs, hA]
  rw [length_transpose] at hlast
  exact ⟨_, rfl, h0, hlast⟩

theorem C5_pointer_endpoints_witness :
    (∃ A, TCCSMatrix.ofEntries 3 [((2, 0), 4), ((1, 2), 5)] staleMem = some A ∧
      A.colptr[0]? = some 0 ∧
      A.colptr[3]? = some (([((2, 0), 4), ((1, 2), 5)] : entry_map_t Int).length : Int)) ∧
    (∃ B, TCRSMatrix.ofEntries 3 [((1, 2), 5), ((2, 0), 4)] staleMem = some B ∧
      B.rowptr[0]? = some 0 ∧
      B.rowptr[3]? = some (([((1, 2), 5), ((2, 0), 4)] : entry_map_t Int).length : Int)) :=
  C5_pointer_endpoints 3 [((2, 0), 4), ((1, 2), 5)] [((1, 2), 5), ((2, 0), 4)] staleMem staleMem
    (by decide) (by decide) (by decide)
    (by unfold TCCSMatrix.IsEntryMap; decide) (by unfold InRange; decide)
    (by unfold TCRSMatrix.IsEntryMap; decide) (by unfold InRange; decide)

/-- C6. For `N < 2^31 - 1` (so that `n + 1` is an `int`) and fewer than `2^31` entries,
and a sorted entry set with indices `< N` and every column populated, the CCS
pointer array is non-decreasing on `0..N`, and `colptr[k+1] - colptr[k]` is
the number of entries in column `k`. -/
theorem C6_colptr_monotone {T : Type} (N : Nat) (l : entry_map_t T) (mem : Fresh T)
    (hN : N < 2147483647) (hnnz : l.length < 2147483648)
    (hs : TCCSMatrix.IsEntryMap l) (hr : InRange N l) (hp : ColsPopulated N l) :
    ∃ A, TCCSMatrix.ofEntries N l mem = some A ∧
      ∀ k, k < N → ∃ a b : Int, A.colptr[k]? = some a ∧ A.colptr[k + 1]? = some b ∧
        a ≤ b ∧ b - a = ((l.countP (fun e => decide (e.1.2 = k)) : Nat) : Int) := by
  obtain ⟨A, st, hA, -⟩ := TCCSMatrix.ofEntries_arrays N l mem hN hnnz hr
  have hfull := TCCSMatrix.ofEntries_ptr_full N l mem hN hnnz hs hr hp hA
  refine ⟨A, hA, fun k hk => ⟨_, _, hfull k (by omega), hfull (k + 1) (by omega), ?_, ?_⟩⟩
  · exact_mod_cast TCCSMatrix.colsBelow_mono l (Nat.le_succ k)
  · rw [TCCSMatrix.colsBelow_succ]
    push_cast
    ring

theorem C6_colptr_monotone_witness :
    ∃ A, TCCSMatrix.ofEntries 2 [((0, 0), 2), ((1, 0), 1), ((1, 1), 3)] staleMem = some A ∧
      ∀ k, k < 2 → ∃ a b : Int, A.colptr[k]? = some a ∧ A.colptr[k + 1]? = some b ∧
        a ≤ b ∧ b - a = ((([((0, 0), 2), ((1, 0), 1), ((1, 1), 3)] : entry_map_t Int).countP
          (fun e => decide (e.1.2 = k)) : Nat) : Int) :=
  C6_colptr_monotone 2 [((0, 0), 2), ((1, 0), 1), ((1, 1), 3)] staleMem (by decide) (by decide)
    (by unfold TCCSMatrix.IsEntryMap; decide) (by unfold InRange; decide)
    (by unfold ColsPopulated; decide)

/-- C7. For `N < 2^31 - 1` (so that `n + 1` is an `int`) and fewer than `2^31` entries,
the CCS constructor returns a matrix for every entry set with indices `< N`,
whether or not every column is populated and in whatever order the entries
are given: `colptr[N]` is the size of the entry set, `rowind` and `values`
have that length, and `rowind[p]`, `values[p]` are the row and the value of
the `p`-th entry in traversal order. -/
theorem C7_flat_arrays {T : Type} (N : Nat) (l : entry_map_t T) (mem : Fresh T)
    (hN : N < 2147483647) (hnnz : l.length < 2147483648) (hr : InRange N l) :
    ∃ A, TCCSMatrix.ofEntries N l mem = some A ∧
      A.colptr[N]? = some (l.length : Int) ∧
      A.rowind.length = l.length ∧ A.values.length = l.length ∧
      ∀ (p : Nat) (e : index_t × T), l[p]? = some e →
        A.rowind[p]? = some (e.1.1 : Int) ∧ A.values[p]? = some e.2 := by
  obtain ⟨A, st, hA, -, -, hc, hlen, hri, hv⟩ := TCCSMatrix.ofEntries_arrays N l mem
    hN hnnz hr
  refine ⟨A, hA, ?_, by simp [hri], by simp [hv], ?_⟩
  · rw [hc]; simp [List.getElem?_set, hlen]
  · intro p e hp
    simp [hri, hv, hp]

theorem C7_flat_arrays_witness :
    ∃ A, TCCSMatrix.ofEntries 3 [((2, 0), 4), ((1, 2), 5)] staleMem = some A ∧
      A.colptr[3]? = some (([((2, 0), 4), ((1, 2), 5)] : entry_map_t Int).length : Int) ∧
      A.rowind.length = ([((2, 0), 4), ((1, 2), 5)] : entry_map_t Int).length ∧
      A.values.length = ([((2, 0), 4), ((1, 2), 5)] : entry_map_t Int).length ∧
      ∀ (p : Nat) (e : index_t × Int), ([((2, 0), 4), ((1, 2), 5)] : entry_map_t Int)[p]? = some e →
        A.rowind[p]? = some (e.1.1 : Int) ∧ A.values[p]? = some e.2 :=
  C7_flat_arrays 3 [((2, 0), 4), ((1, 2), 5)] staleMem (by decide) (by decide)
    (by unfold InRange; decide)

/-- C8. For `N < 2^31 - 1` (so that `n + 1` is an `int`) and fewer than `2^31` entries,
a sorted entry set with indices `< N` (other columns may be empty) and a
column `c` that holds an entry, `colptr[c]` is the number of
entries whose column is `< c`; that is the position in traversal order of the
first entry of column `c`: the entry there has column `c` and every earlier
entry has a smaller column. -/
theorem C8_populated_column_pointer {T : Type} (N : Nat) (l : entry_map_t T) (mem : Fresh T)
    (hN : N < 2147483647) (hnnz : l.length < 2147483648)
    (hs : TCCSMatrix.IsEntryMap l) (hr : InRange N l) (c : Nat) (hc : ∃ e ∈ l, e.1.2 = c) :
    ∃ A, TCCSMatrix.ofEntries N l mem = some A ∧
      A.colptr[c]? = some ((colsBelow l c : Nat) : Int) ∧
      (∃ e, l[colsBelow l c]? = some e ∧ e.1.2 = c) ∧
      (∀ (p : Nat) (e : index_t × T), p < colsBelow l c → l[p]? = some e → e.1.2 < c) := by
  obtain ⟨A, st, hA, -⟩ := TCCSMatrix.ofEntries_arrays N l mem hN hnnz hr
  obtain ⟨-, -, hpop, -, -⟩ := TCCSMatrix.ofEntries_ptr N l mem hN hnnz hr hs.cols_mono hA
  have hcN : c < N := by
    obtain ⟨e, he, hec⟩ := hc
    rw [← hec]; exact (hr e he).2
  refine ⟨A, hA, hpop c hcN hc, ?_, ?_⟩
  · obtain ⟨x, hx, hxc⟩ := hc
    have hmem : x ∈ l.filter (fun e => decide (e.1.2 = c)) := by
      rw [List.mem_filter]; exact ⟨hx, by simpa using hxc⟩
    cases hf : l.filter (fun e => decide (e.1.2 = c)) with
    | nil => rw [hf] at hmem; exact absurd hmem (List.not_mem_nil _)
    | cons e es =>
      have he : e ∈ l.filter (fun e => decide (e.1.2 = c)) := by
        rw [hf]; exact List.mem_cons_self _ _
      have h0 := getElem?_add_of_filter_eq (fun e : index_t × T => e.1.2) hs.cols_mono c 0 e
        (by rw [hf]; simp)
      exact ⟨e, h0, by simpa using (List.mem_filter.mp he).2⟩
  · intro p e hp hpe
    have hdec := filter_lt_append_filter_ge (fun e : index_t × T => e.1.2) hs.cols_mono c
    have hp2 : p < (l.filter (fun e => decide (e.1.2 < c))).length := by
      rw [← List.countP_eq_length_filter]; exact hp
    rw [← hdec, List.getElem?_append_left hp2] at hpe
    have hmem := List.getElem?_mem hpe
    simpa using (List.mem_filter.mp hmem).2

theorem C8_populated_column_pointer_witness :
    ∃ A, TCCSMatrix.ofEntries 3 [((2, 0), 4), ((1, 2), 5), ((2, 2), 6)] staleMem = some A ∧
      A.colptr[2]? =
        some ((colsBelow ([((2, 0), 4), ((1, 2), 5), ((2, 2), 6)] : entry_map_t Int) 2 : Nat) : Int) ∧
      (∃ e, ([((2, 0), 4), ((1, 2), 5), ((2, 2), 6)] : entry_map_t Int)[colsBelow
        ([((2, 0), 4), ((1, 2), 5), ((2, 2), 6)] : entry_map_t Int) 2]? = some e ∧ e.1.2 = 2) ∧
      (∀ (p : Nat) (e : index_t × Int),
        p < colsBelow ([((2, 0), 4), ((1, 2), 5), ((2, 2), 6)] : entry_map_t Int) 2 →
        ([((2, 0), 4), ((1, 2), 5), ((2, 2), 6)] : entry_map_t Int)[p]? = some e → e.1.2 < 2) :=
  C8_populated_column_pointer 3 [((2, 0), 4), ((1, 2), 5), ((2, 2), 6)] staleMem
    (by decide) (by decide)
    (by unfold TCCSMatrix.IsEntryMap; decide) (by unfold InRange; decide) 2 (by decide)

/-- C9, at slot 0. For `N = 1` and the empty entry set, column 0 holds no
entry, yet `colptr[0]` after construction is `0` and not the value `7` the slot
held before: the constructor writes slot 0 (and slot `N`) unconditionally. -/
theorem C9_slot_zero_written :
    ∃ A, TCCSMatrix.ofEntries 1 ([] : entry_map_t Int) staleMem = some A ∧
      (∀ e ∈ ([] : entry_map_t Int), e.1.2 ≠ 0) ∧
      A.colptr[0]? = some 0 ∧ ¬ (A.colptr[0]? = some (staleMem.ptr 0)) :=
  ⟨_, rfl, by decide, by decide, by decide⟩

/-- C9, amended. For `N < 2^31 - 1` (so that `n + 1` is an `int`) and fewer than `2^31` entries,
and a sorted entry set with indices `< N`, a column `k` with
`0 < k < N` that holds no entry keeps in `colptr[k]` the value the slot held
before construction; likewise `rowptr[k]` for an empty row `k` with
`0 < k < N` in the CRS constructor. -/
theorem C9_empty_slice_unset {T : Type} (N : Nat) (lc lr : entry_map_t T) (memc memr : Fresh T)
    (hN : N < 2147483647) (hnc : lc.length < 2147483648) (hnr : lr.length < 2147483648)
    (hsc : TCCSMatrix.IsEntryMap lc) (hrc : InRange N lc)
    (hsr : TCRSMatrix.IsEntryMap lr) (hrr : InRange N lr) :
    (∃ A, TCCSMatrix.ofEntries N lc memc = some A ∧
      ∀ k, 0 < k → k < N → (∀ e ∈ lc, e.1.2 ≠ k) → A.colptr[k]? = some (memc.ptr k)) ∧
    (∃ B, TCRSMatrix.ofEntries N lr memr = some B ∧
      ∀ k, 0 < k → k < N → (∀ e ∈ lr, e.1.1 ≠ k) → B.rowptr[k]? = some (memr.ptr k)) := by
  have key : ∀ (l : entry_map_t T) (mem : Fresh T), l.length < 2147483648 →
      TCCSMatrix.IsEntryMap l → InRange N l →
      ∃ A, TCCSMatrix.ofEntries N l mem = some A ∧
        ∀ k, 0 < k → k < N → (∀ e ∈ l, e.1.2 ≠ k) → A.colptr[k]? = some (mem.ptr k) := by
    intro l mem hnnz hs hr
    obtain ⟨A, st, hA, -⟩ := TCCSMatrix.ofEntries_arrays N l mem hN hnnz hr
    obtain ⟨-, -, -, hemp, -⟩ := TCCSMatrix.ofEntries_ptr N l mem hN hnnz hr hs.cols_mono hA
    exact ⟨A, hA, hemp⟩
  refine ⟨key lc memc hnc hsc hrc, ?_⟩
  obtain ⟨A, hA, hemp⟩ := key (transpose lr) memr (by rw [length_transpose]; exact hnr)
    ((TCRSMatrix.isEntryMap_iff_transpose lr).mp hsr) (inRange_transpose hrr)
  rw [TCRSMatrix.ofEntries_eq_ccs, hA]
  refine ⟨_, rfl, fun k hk0 hk hno => hemp k hk0 hk ?_⟩
  intro e he
  simp only [transpose, List.mem_map] at he
  obtain ⟨x, hx, rfl⟩ := he
  exact hno x hx

theorem C9_empty_slice_unset_witness :
    (∃ A, TCCSMatrix.ofEntries 3 [((2, 0), 4), ((1, 2), 5)] staleMem = some A ∧
      ∀ k, 0 < k → k < 3 → (∀ e ∈ ([((2, 0), 4), ((1, 2), 5)] : entry_map_t Int), e.1.2 ≠ k) →
        A.colptr[k]? = some (staleMem.ptr k)) ∧
    (∃ B, TCRSMatrix.ofEntries 3 [((0, 2), 5), ((2, 0), 4)] staleMem = some B ∧
      ∀ k, 0 < k → k < 3 → (∀ e ∈ ([((0, 2), 5), ((2, 0), 4)] : entry_map_t Int), e.1.1 ≠ k) →
        B.rowptr[k]? = some (staleMem.ptr k)) :=
  C9_empty_slice_unset 3 [((2, 0), 4), ((1, 2), 5)] [((0, 2), 5), ((2, 0), 4)] staleMem staleMem
    (by decide) (by decide) (by decide)
    (by unfold TCCSMatrix.IsEntryMap; decide) (by unfold InRange; decide)
    (by unfold TCRSMatrix.IsEntryMap; decide) (by unfold InRange; decide)

/-- C10. CRS construction is CCS construction of the transposed entry set:
a list is in CRS order exactly when its transpose is in CCS order, and
`TCRSMatrix(N, E)` has `n`, `rowptr`, `colind`, `values` equal to the `n`,
`colptr`, `rowind`, `values` of `TCCSMatrix(N, E^T)` (both fail together). -/
theorem C10_crs_mirrors_ccs {T : Type} (N : Nat) (l : entry_map_t T) (mem : Fresh T) :
    (TCRSMatrix.IsEntryMap l ↔ TCCSMatrix.IsEntryMap (transpose l)) ∧
    (TCRSMatrix.ofEntries N l mem).map (fun B => (B.n, B.rowptr, B.colind, B.values)) =
      (TCCSMatrix.ofEntries N (transpose l) mem).map
        (fun A => (A.n, A.colptr, A.rowind, A.values)) := by
  refine ⟨TCRSMatrix.isEntryMap_iff_transpose l, ?_⟩
  rw [TCRSMatrix.ofEntries_eq_ccs]
  cases TCCSMatrix.ofEntries N (transpose l) mem <;> rfl

/-! ## Copy construction and assignment -/

theorem eq_of_getElem?_eq_below {α : Type} {a b : List α} {N : Nat} (ha : a.length = N)
    (hb : b.length = N) (h : ∀ i, i < N → a[i]? = b[i]?) : a = b := by
  apply List.ext_getElem?
  intro i
  by_cases hi : i < N
  · exact h i hi
  · rw [List.getElem?_eq_none (by omega), List.getElem?_eq_none (by omega)]

theorem getD_of_getElem?_eq_some {α : Type} {a : List α} {i : Nat} {x : α} (d : α)
    (h : a[i]? = some x) : a.getD i d = x := by
  rw [List.getD_eq_getElem?_getD, h]
  rfl

theorem ccs_multMV_stores {T : Type} [CommRing T] {A : TCCSMatrix T} {N : Nat}
    {l : entry_map_t T} (h : A.Stores N l) (X Y : List T) (hX : X.length = N)
    (hY : Y.length = N) (sAX sY : T) :
    ∃ Y2, A.MultMV X Y sAX sY = some Y2 ∧ Y2.length = N ∧
      ∀ i, i < N → Y2[i]? = some (sY * Y.getD i 0 + sAX * rowDot l X i) := by
  obtain ⟨hmono, hr, hn, hptr, hri, hv⟩ := h
  exact ccs_multMV_storage N l A hmono hr hn hptr hri hv X Y hX hY sAX sY

theorem crs_multMV_stores {T : Type} [CommRing T] {B : TCRSMatrix T} {N : Nat}
    {l : entry_map_t T} (h : B.Stores N l) (X Y : List T) (hX : X.length = N)
    (hY : Y.length = N) (sAX sY : T) :
    ∃ Y2, B.MultMV X Y sAX sY = some Y2 ∧ Y2.length = N ∧
      ∀ i, i < N → Y2[i]? = some (sY * Y.getD i 0 + sAX * (sAX * rowDot l X i)) := by
  obtain ⟨hmono, hr, hn, hptr, hci, hv⟩ := h
  exact crs_multMV_storage N l B hmono hr hn hptr hci hv X Y hX hY sAX sY

/-! ## Structural well-formedness -/

theorem countP_range_lt (n : Nat) : ∀ m, m ≤ n →
    (List.range n).countP (fun p => decide (p < m)) = m := by
  induction n with
  | zero =>
    intro m hm
    have : m = 0 := by omega
    subst this
    rfl
  | succ n ih =>
    intro m hm
    rw [List.range_succ, List.countP_append]
    rcases Nat.lt_or_ge n m with h | h
    · have hm2 : m = n + 1 := by omega
      subst hm2
      have h1 : (List.range n).countP (fun p => decide (p < n + 1)) = n := by
        have : (List.range n).countP (fun p => decide (p < n + 1)) = (List.range n).length := by
          rw [List.countP_eq_length]
          intro a ha
          have := List.mem_range.mp ha
          simp; omega
        rw [this, List.length_range]
      rw [h1]
      simp
    · rw [ih m h]
      simp [List.countP_cons]
      omega

/-- For a predicate that is downward closed below `N`, the predicate holds at
`j < N` exactly when `j` is below the number of indices in `[0, N)` at which it
holds. -/
theorem countP_range_downward (P : Nat → Bool) (N : Nat) :
    (∀ i j, i ≤ j → j < N → P j = true → P i = true) →
    ∀ j, j < N → (P j = true ↔ j < (List.range N).countP P) := by
  induction N with
  | zero => intro _ j hj; omega
  | succ N ih =>
    intro hdc j hj
    have hle : (List.range N).countP P ≤ N := by
      have := List.countP_le_length P (l := List.range N)
      rwa [List.length_range] at this
    rw [List.range_succ, List.countP_append]
    by_cases hN : P N = true
    · have hall : (List.range N).countP P = N := by
        have : (List.range N).countP P = (List.range N).length := by
          rw [List.countP_eq_length]
          intro a ha
          exact hdc a N (Nat.le_of_lt (List.mem_range.mp ha)) (Nat.lt_succ_self N) hN
        rw [this, List.length_range]
      have : P j = true := hdc j N (by omega) (Nat.lt_succ_self N) hN
      simp [hall, hN, this]
      omega
    · have h0 : [N].countP P = 0 := by simp [List.countP_cons, hN]
      rw [h0, Nat.add_zero]
      rcases Nat.lt_or_ge j N with h | h
      · exact ih (fun i j hij hjN => hdc i j hij (by omega)) j h
      · have : j = N := by omega
        subst this
        constructor
        · intro h; exact absurd h hN
        · intro h; omega

theorem ccs_ptr_mono {T : Type} (A : TCCSMatrix T) (N : Nat)
    (hmono : ∀ k, k < N → A.colptr.getD k 0 ≤ A.colptr.getD (k + 1) 0) :
    ∀ j k, j ≤ k → k ≤ N → A.colptr.getD j 0 ≤ A.colptr.getD k 0 := by
  intro j k hjk
  induction hjk with
  | refl => intro _; exact le_refl _
  | step _ ih => intro hk; exact le_trans (ih (by omega)) (hmono _ (by omega))

/-- Position `p` lies in a column below `k` exactly when it lies before the
start `colptr[k]` of column `k`. -/
theorem ccs_colOf_lt_iff {T : Type} (A : TCCSMatrix T) (N : Nat)
    (h0 : A.colptr.getD 0 0 = 0)
    (hmono : ∀ k, k < N → A.colptr.getD k 0 ≤ A.colptr.getD (k + 1) 0)
    (p k : Nat) (hk : k ≤ N) :
    A.colOf N p < k ↔ (p : Int) < A.colptr.getD k 0 := by
  rcases Nat.eq_zero_or_pos k with hz | hpos
  · subst hz
    rw [h0]
    constructor <;> intro h <;> omega
  · have hd := countP_range_downward
      (fun j => decide (A.colptr.getD (j + 1) 0 ≤ (p : Int))) N
      (by
        intro i j hij hj hP
        rw [decide_eq_true_eq] at hP ⊢
        exact le_trans (ccs_ptr_mono A N hmono (i + 1) (j + 1) (by omega) (by omega)) hP)
      (k - 1) (by omega)
    have e : k - 1 + 1 = k := by omega
    simp only [e, decide_eq_true_eq] at hd
    unfold TCCSMatrix.colOf
    omega

theorem ccs_colOf_mono {T : Type} (A : TCCSMatrix T) (N : Nat) {p q : Nat} (h : p ≤ q) :
    A.colOf N p ≤ A.colOf N q := by
  unfold TCCSMatrix.colOf
  apply List.countP_mono_left
  intro j _ hj
  rw [decide_eq_true_eq] at hj ⊢
  omega

/-- A CCS matrix that satisfies the structural invariants is the storage of
its entries: every structurally well-formed matrix is well-formed in the sense
of `Stores`. -/
theorem ccs_stores_of_wellFormed {T : Type} [Zero T] (A : TCCSMatrix T) (N : Nat)
    (h : A.WellFormed N) : A.Stores N (A.entries N) := by
  obtain ⟨hn, hlen, h0, hN, hv, hmono, hri⟩ := h
  have hc0 : A.colptr.getD 0 0 = 0 := getD_of_getElem?_eq_some 0 h0
  have hcN : A.colptr.getD N 0 = (A.rowind.length : Int) := getD_of_getElem?_eq_some 0 hN
  have hrow : ∀ p, p < A.rowind.length →
      0 ≤ A.rowind.getD p 0 ∧ A.rowind.getD p 0 < (N : Int) := by
    intro p hp
    rw [List.getD_eq_getElem _ _ hp]
    exact hri _ (List.getElem_mem hp)
  refine ⟨?_, ?_, hn, ?_, ?_, ?_⟩
  · unfold TCCSMatrix.entries
    rw [List.pairwise_map]
    exact (List.pairwise_lt_range _).imp (fun hpq => ccs_colOf_mono A N (Nat.le_of_lt hpq))
  · intro e he
    unfold TCCSMatrix.entries at he
    rw [List.mem_map] at he
    obtain ⟨p, hp, rfl⟩ := he
    have hp2 := List.mem_range.mp hp
    have hr := hrow p hp2
    refine ⟨by show (A.rowind.getD p 0).toNat < N; omega, ?_⟩
    show A.colOf N p < N
    rw [ccs_colOf_lt_iff A N hc0 hmono p N (le_refl _), hcN]
    omega
  · intro k hk
    have hge : 0 ≤ A.colptr.getD k 0 := by
      have := ccs_ptr_mono A N hmono 0 k (Nat.zero_le _) hk
      rwa [hc0] at this
    have hle : A.colptr.getD k 0 ≤ (A.rowind.length : Int) := by
      have := ccs_ptr_mono A N hmono k N hk (le_refl _)
      rwa [hcN] at this
    have hcount : colsBelow (A.entries N) k = (A.colptr.getD k 0).toNat := by
      unfold colsBelow TCCSMatrix.entries
      rw [List.countP_map, ← countP_range_lt A.rowind.length (A.colptr.getD k 0).toNat (by omega)]
      apply List.countP_congr
      intro p _
      simp only [Function.comp, decide_eq_true_eq]
      rw [ccs_colOf_lt_iff A N hc0 hmono p k hk]
      omega
    rw [hcount, List.getElem?_eq_getElem (by omega : k < A.colptr.length),
      List.getD_eq_getElem _ _ (by omega : k < A.colptr.length) ] at *
    congr 1
    omega
  · apply List.ext_getElem?
    intro p
    unfold TCCSMatrix.entries
    rw [List.map_map, List.getElem?_map]
    by_cases hp : p < A.rowind.length
    · rw [List.getElem?_range hp, List.getElem?_eq_getElem hp]
      have hr := hrow p hp
      rw [List.getD_eq_getElem _ _ hp] at hr
      simp only [Option.map_some', Function.comp, List.getD_eq_getElem _ _ hp]
      congr 1
      omega
    · rw [List.getElem?_eq_none (by omega), List.getElem?_eq_none (by simp; omega)]
      rfl
  · apply List.ext_getElem?
    intro p
    unfold TCCSMatrix.entries
    rw [List.map_map, List.getElem?_map]
    by_cases hp : p < A.rowind.length
    · rw [List.getElem?_range hp, List.getElem?_eq_getElem (by omega : p < A.values.length)]
      simp only [Option.map_some', Function.comp,
        List.getD_eq_getElem _ _ (by omega : p < A.values.length)]
    · rw [List.getElem?_eq_none (by omega), List.getElem?_eq_none (by simp; omega)]
      rfl

theorem rowsBelow_transpose {T : Type} (l : entry_map_t T) (k : Nat) :
    rowsBelow (transpose l) k = colsBelow l k := by
  simp only [colsBelow, rowsBelow, transpose, List.countP_map]
  rfl

/-- A CRS matrix whose arrays, read as a CCS matrix, store `l` stores the
transpose of `l`. -/
theorem crs_stores_transpose {T : Type} (B : TCRSMatrix T) (N : Nat) (l : entry_map_t T)
    (h : TCCSMatrix.Stores
      { n := B.n, colptr := B.rowptr, rowind := B.colind, values := B.values } N l) :
    B.Stores N (transpose l) := by
  obtain ⟨hmono, hr, hn, hptr, hri, hv⟩ := h
  refine ⟨?_, inRange_transpose hr, hn, ?_, ?_, ?_⟩
  · rw [transpose, List.pairwise_map]
    exact hmono
  · intro k hk
    rw [rowsBelow_transpose]
    exact hptr k hk
  · show B.colind = _
    rw [transpose, List.map_map]
    exact hri
  · show B.values = _
    rw [transpose, List.map_map]
    exact hv

/-- A CRS matrix that satisfies the structural invariants is the storage of
its entries. -/
theorem crs_stores_of_wellFormed {T : Type} [Zero T] (B : TCRSMatrix T) (N : Nat)
    (h : B.WellFormed N) : B.Stores N (B.entries N) := by
  have hA : TCCSMatrix.WellFormed
      { n := B.n, colptr := B.rowptr, rowind := B.colind, values := B.values } N := h
  have hst := crs_stores_transpose B N _ (ccs_stores_of_wellFormed _ N hA)
  have he : transpose (TCCSMatrix.entries
      { n := B.n, colptr := B.rowptr, rowind := B.colind, values := B.values } N) =
      B.entries N := by
    unfold transpose TCCSMatrix.entries TCRSMatrix.entries
    rw [List.map_map]
    rfl
  rw [he] at hst
  exact hst

theorem sampleCCS_wellFormed : sampleCCS.WellFormed 2 := by
  unfold TCCSMatrix.WellFormed
  decide

theorem sampleCRS_wellFormed : sampleCRS.WellFormed 2 := by
  unfold TCRSMatrix.WellFormed
  decide

/-- C12. With `scale_Y = 0` the result of either kernel on a well-formed
matrix (one with the structural invariants `WellFormed`) does not depend on
the initial content of `Y`: for any two initial vectors of length `N` the two
calls return the same vector. -/
theorem C12_scale_zero_ignores_Y {T : Type} [CommRing T] (N : Nat)
    (A : TCCSMatrix T) (hA : A.WellFormed N) (B : TCRSMatrix T) (hB : B.WellFormed N)
    (X Y1 Y2 : List T) (hX : X.length = N) (hY1 : Y1.length = N) (hY2 : Y2.length = N)
    (scale_AX : T) :
    (∃ Z, A.MultMV X Y1 scale_AX 0 = some Z ∧ A.MultMV X Y2 scale_AX 0 = some Z) ∧
    (∃ Z, B.MultMV X Y1 scale_AX 0 = some Z ∧ B.MultMV X Y2 scale_AX 0 = some Z) := by
  have hA := ccs_stores_of_wellFormed A N hA
  have hB := crs_stores_of_wellFormed B N hB
  constructor
  · obtain ⟨Z1, h1, hl1, hp1⟩ := ccs_multMV_stores hA X Y1 hX hY1 scale_AX 0
    obtain ⟨Z2, h2, hl2, hp2⟩ := ccs_multMV_stores hA X Y2 hX hY2 scale_AX 0
    have : Z2 = Z1 := eq_of_getElem?_eq_below hl2 hl1 (fun i hi => by
      rw [hp1 i hi, hp2 i hi, zero_mul, zero_mul])
    rw [this] at h2
    exact ⟨Z1, h1, h2⟩
  · obtain ⟨Z1, h1, hl1, hp1⟩ := crs_multMV_stores hB X Y1 hX hY1 scale_AX 0
    obtain ⟨Z2, h2, hl2, hp2⟩ := crs_multMV_stores hB X Y2 hX hY2 scale_AX 0
    have : Z2 = Z1 := eq_of_getElem?_eq_below hl2 hl1 (fun i hi => by
      rw [hp1 i hi, hp2 i hi, zero_mul, zero_mul])
    rw [this] at h2
    exact ⟨Z1, h1, h2⟩

theorem C12_scale_zero_ignores_Y_witness :
    (∃ Z, sampleCCS.MultMV [10, 100] [5, 6] 7 0 = some Z ∧
      sampleCCS.MultMV [10, 100] [-8, 9] 7 0 = some Z) ∧
    (∃ Z, sampleCRS.MultMV [10, 100] [5, 6] 7 0 = some Z ∧
      sampleCRS.MultMV [10, 100] [-8, 9] 7 0 = some Z) :=
  C12_scale_zero_ignores_Y 2 sampleCCS sampleCCS_wellFormed sampleCRS sampleCRS_wellFormed
    [10, 100] [5, 6] [-8, 9] rfl rfl rfl 7

/-- C13. On a well-formed matrix, two successive calls of either kernel with
`scale_AX = 1` and `scale_Y = 1` on the same `Y` turn `Y0` into
`Y0 + 2*(A*X)` (the first call gives `Y0 + A*X`), where `A*X` is taken over
the entries the matrix stores; where `Y0[i] = 0` the result after two calls is
twice the result after one call. -/
theorem C13_accumulation {T : Type} [CommRing T] (N : Nat)
    (A : TCCSMatrix T) (hA : A.WellFormed N) (B : TCRSMatrix T) (hB : B.WellFormed N)
    (X Y0 : List T) (hX : X.length = N) (hY0 : Y0.length = N) :
    (∃ Y1 Y2, A.MultMV X Y0 1 1 = some Y1 ∧ A.MultMV X Y1 1 1 = some Y2 ∧
      ∀ i, i < N → Y1[i]? = some (Y0.getD i 0 + rowDot (A.entries N) X i) ∧
        Y2[i]? = some (Y0.getD i 0 + 2 * rowDot (A.entries N) X i) ∧
        (Y0.getD i 0 = 0 → Y2.getD i 0 = 2 * Y1.getD i 0)) ∧
    (∃ Y1 Y2, B.MultMV X Y0 1 1 = some Y1 ∧ B.MultMV X Y1 1 1 = some Y2 ∧
      ∀ i, i < N → Y1[i]? = some (Y0.getD i 0 + rowDot (B.entries N) X i) ∧
        Y2[i]? = some (Y0.getD i 0 + 2 * rowDot (B.entries N) X i) ∧
        (Y0.getD i 0 = 0 → Y2.getD i 0 = 2 * Y1.getD i 0)) := by
  have hA := ccs_stores_of_wellFormed A N hA
  have hB := crs_stores_of_wellFormed B N hB
  constructor
  · obtain ⟨Y1, h1, hl1, hp1⟩ := ccs_multMV_stores hA X Y0 hX hY0 1 1
    obtain ⟨Y2, h2, hl2, hp2⟩ := ccs_multMV_stores hA X Y1 hX hl1 1 1
    refine ⟨Y1, Y2, h1, h2, fun i hi => ?_⟩
    have e1 : Y1[i]? = some (Y0.getD i 0 + rowDot (A.entries N) X i) := by
      rw [hp1 i hi]; congr 1; ring
    have e2 : Y2[i]? = some (Y0.getD i 0 + 2 * rowDot (A.entries N) X i) := by
      rw [hp2 i hi, getD_of_getElem?_eq_some 0 e1]; congr 1; ring
    refine ⟨e1, e2, fun h0 => ?_⟩
    rw [getD_of_getElem?_eq_some 0 e1, getD_of_getElem?_eq_some 0 e2, h0]
    ring
  · obtain ⟨Y1, h1, hl1, hp1⟩ := crs_multMV_stores hB X Y0 hX hY0 1 1
    obtain ⟨Y2, h2, hl2, hp2⟩ := crs_multMV_stores hB X Y1 hX hl1 1 1
    refine ⟨Y1, Y2, h1, h2, fun i hi => ?_⟩
    have e1 : Y1[i]? = some (Y0.getD i 0 + rowDot (B.entries N) X i) := by
      rw [hp1 i hi]; congr 1; ring
    have e2 : Y2[i]? = some (Y0.getD i 0 + 2 * rowDot (B.entries N) X i) := by
      rw [hp2 i hi, getD_of_getElem?_eq_some 0 e1]; congr 1; ring
    refine ⟨e1, e2, fun h0 => ?_⟩
    rw [getD_of_getElem?_eq_some 0 e1, getD_of_getElem?_eq_some 0 e2, h0]
    ring

theorem C13_accumulation_witness :
    (∃ Y1 Y2, sampleCCS.MultMV [10, 100] [0, 6] 1 1 = some Y1 ∧
      sampleCCS.MultMV [10, 100] Y1 1 1 = some Y2 ∧
      ∀ i, i < 2 → Y1[i]? = some (([0, 6] : List Int).getD i 0 +
          rowDot (sampleCCS.entries 2) [10, 100] i) ∧
        Y2[i]? = some (([0, 6] : List Int).getD i 0 +
          2 * rowDot (sampleCCS.entries 2) [10, 100] i) ∧
        (([0, 6] : List Int).getD i 0 = 0 → Y2.getD i 0 = 2 * Y1.getD i 0)) ∧
    (∃ Y1 Y2, sampleCRS.MultMV [10, 100] [0, 6] 1 1 = some Y1 ∧
      sampleCRS.MultMV [10, 100] Y1 1 1 = some Y2 ∧
      ∀ i, i < 2 → Y1[i]? = some (([0, 6] : List Int).getD i 0 +
          rowDot (sampleCRS.entries 2) [10, 100] i) ∧
        Y2[i]? = some (([0, 6] : List Int).getD i 0 +
          2 * rowDot (sampleCRS.entries 2) [10, 100] i) ∧
        (([0, 6] : List Int).getD i 0 = 0 → Y2.getD i 0 = 2 * Y1.getD i 0)) :=
  C13_accumulation 2 sampleCCS sampleCCS_wellFormed sampleCRS sampleCRS_wellFormed
    [10, 100] [0, 6] rfl rfl

/-- C16. On a well-formed CRS matrix the CRS kernel returns
`Y2[i] = scale_Y*Y[i] + scale_AX*scale_AX*(A*X)[i]` for every `i < N`:
`scale_AX` multiplies each term of the row sum and the sum again.  Its result
equals that of the CCS kernel on a well-formed CCS matrix holding the same
entries exactly when `scale_AX*scale_AX*(A*X)[i] = scale_AX*(A*X)[i]` for
every `i < N`; in particular when `scale_AX` is `0` or `1`. -/
theorem C16_crs_scale_twice {T : Type} [CommRing T] (N : Nat)
    (A : TCCSMatrix T) (hA : A.WellFormed N) (B : TCRSMatrix T) (hB : B.WellFormed N)
    (hperm : (A.entries N).Perm (B.entries N))
    (X Y : List T) (hX : X.length = N) (hY : Y.length = N) (scale_AX scale_Y : T) :
    ∃ Yr Yc, B.MultMV X Y scale_AX scale_Y = some Yr ∧
      A.MultMV X Y scale_AX scale_Y = some Yc ∧
      (∀ i, i < N → Yr[i]? =
        some (scale_Y * Y.getD i 0 + scale_AX * scale_AX * rowDot (B.entries N) X i)) ∧
      (Yr = Yc ↔ ∀ i, i < N →
        scale_AX * scale_AX * rowDot (B.entries N) X i = scale_AX * rowDot (B.entries N) X i) ∧
      (scale_AX = 0 ∨ scale_AX = 1 → Yr = Yc) := by
  obtain ⟨Yr, hr, hlr, hpr⟩ := crs_multMV_stores (crs_stores_of_wellFormed B N hB)
    X Y hX hY scale_AX scale_Y
  obtain ⟨Yc, hc, hlc, hpc⟩ := ccs_multMV_stores (ccs_stores_of_wellFormed A N hA)
    X Y hX hY scale_AX scale_Y
  have hiff : Yr = Yc ↔ ∀ i, i < N →
      scale_AX * scale_AX * rowDot (B.entries N) X i =
        scale_AX * rowDot (B.entries N) X i := by
    constructor
    · intro heq i hi
      have h1 := hpr i hi
      rw [heq, hpc i hi, rowDot_perm hperm X i] at h1
      have h2 := add_left_cancel (Option.some.inj h1)
      rw [mul_assoc]
      exact h2.symm
    · intro h
      refine eq_of_getElem?_eq_below hlr hlc (fun i hi => ?_)
      rw [hpr i hi, hpc i hi, rowDot_perm hperm X i, ← mul_assoc, h i hi]
  refine ⟨Yr, Yc, hr, hc, ?_, hiff, ?_⟩
  · intro i hi
    rw [hpr i hi, mul_assoc]
  · intro h
    apply hiff.mpr
    intro i _
    rcases h with h | h <;> subst h <;> ring

theorem C16_crs_scale_twice_witness :
    ∃ Yr Yc, sampleCRS.MultMV [10, 100] [5, 6] 7 3 = some Yr ∧
      sampleCCS.MultMV [10, 100] [5, 6] 7 3 = some Yc ∧
      (∀ i, i < 2 → Yr[i]? =
        some (3 * ([5, 6] : List Int).getD i 0 +
          7 * 7 * rowDot (sampleCRS.entries 2) [10, 100] i)) ∧
      (Yr = Yc ↔ ∀ i, i < 2 →
        (7 : Int) * 7 * rowDot (sampleCRS.entries 2) [10, 100] i =
          7 * rowDot (sampleCRS.entries 2) [10, 100] i) ∧
      ((7 : Int) = 0 ∨ (7 : Int) = 1 → Yr = Yc) :=
  C16_crs_scale_twice 2 sampleCCS sampleCCS_wellFormed sampleCRS sampleCRS_wellFormed
    (by decide) [10, 100] [5, 6] rfl rfl 7 3

/-! ## Well-formedness of constructed matrices -/

/-- For a dimension and a number of entries that fit in an `int`, and a
sorted entry set with indices `< N` in which every column other than column 0
is populated, the CCS constructor returns a well-formed matrix storing the
entry set. -/
theorem ccs_stores_of_tail_populated {T : Type} (N : Nat) (l : entry_map_t T) (mem : Fresh T)
    (hN : N < 2147483647) (hnnz : l.length < 2147483648)
    (hs : TCCSMatrix.IsEntryMap l) (hr : InRange N l)
    (hp : ∀ k, 0 < k → k < N → ∃ e ∈ l, e.1.2 = k) :
    ∃ A, TCCSMatrix.ofEntries N l mem = some A ∧ A.Stores N l := by
  obtain ⟨A, st, hA, -, hn, -, -, hri, hv⟩ := TCCSMatrix.ofEntries_arrays N l mem hN hnnz hr
  obtain ⟨-, hlast, hpop, -, h0⟩ := TCCSMatrix.ofEntries_ptr N l mem hN hnnz hr hs.cols_mono hA
  refine ⟨A, hA, hs.cols_mono, hr, hn, ?_, hri, hv⟩
  intro k hk
  rcases Nat.lt_or_ge k N with hlt | hge
  · rcases Nat.eq_zero_or_pos k with hz | hpos
    · subst hz
      rw [h0 hlt, TCCSMatrix.colsBelow_eq_zero l (fun _ _ => Nat.zero_le _)]
      rfl
    · exact hpop k hlt (hp k hpos hlt)
  · have : k = N := by omega
    subst this
    rw [hlast, TCCSMatrix.colsBelow_eq_length l (fun e he => (hr e he).2)]

/-- For a dimension and a number of entries that fit in an `int`, and a
sorted entry set with indices `< N` in which every row other than row 0 is
populated, the CRS constructor returns a well-formed matrix storing the entry
set. -/
theorem crs_stores_of_tail_populated {T : Type} (N : Nat) (l : entry_map_t T) (mem : Fresh T)
    (hN : N < 2147483647) (hnnz : l.length < 2147483648)
    (hs : TCRSMatrix.IsEntryMap l) (hr : InRange N l)
    (hp : ∀ k, 0 < k → k < N → ∃ e ∈ l, e.1.1 = k) :
    ∃ B, TCRSMatrix.ofEntries N l mem = some B ∧ B.Stores N l := by
  have hpt : ∀ k, 0 < k → k < N → ∃ e ∈ transpose l, e.1.2 = k := by
    intro k hk0 hk
    obtain ⟨e, he, hek⟩ := hp k hk0 hk
    exact ⟨swapEntry e, List.mem_map_of_mem _ he, hek⟩
  obtain ⟨A, hA, -, -, hn, hptr, hri, hv⟩ := ccs_stores_of_tail_populated N (transpose l) mem
    hN (by rw [length_transpose]; exact hnnz)
    ((TCRSMatrix.isEntryMap_iff_transpose l).mp hs) (inRange_transpose hr) hpt
  rw [TCRSMatrix.ofEntries_eq_ccs, hA]
  refine ⟨_, rfl, hs.rows_mono, hr, hn, ?_, ?_, ?_⟩
  · intro k hk
    rw [← colsBelow_transpose]
    exact hptr k hk
  · show A.rowind = _
    rw [hri, transpose, List.map_map]
    rfl
  · show A.values = _
    rw [hv, transpose, List.map_map]
    rfl

theorem rowsBelow_mono {T : Type} (l : entry_map_t T) {j k : Nat} (h : j ≤ k) :
    rowsBelow l j ≤ rowsBelow l k := by
  rw [← colsBelow_transpose, ← colsBelow_transpose]
  exact TCCSMatrix.colsBelow_mono (transpose l) h

/-- Index bounds of a well-formed CCS matrix: every slice `[colptr[j],
colptr[j+1])` lies inside the index and value arrays, and every row index
stored in it is `< N`. -/
theorem ccs_bounds_of_stores {T : Type} {A : TCCSMatrix T} {N : Nat} {l : entry_map_t T}
    (h : A.Stores N l) :
    A.values.length = A.rowind.length ∧
    ∀ j, j < N → ∃ lo hi : Nat, A.colptr[j]? = some (lo : Int) ∧
      A.colptr[j + 1]? = some (hi : Int) ∧ lo ≤ hi ∧ hi ≤ A.rowind.length ∧
      ∀ ip, lo ≤ ip → ip < hi → ∃ i : Nat, A.rowind[ip]? = some (i : Int) ∧ i < N := by
  obtain ⟨-, hr, -, hptr, hri, hv⟩ := h
  refine ⟨by rw [hri, hv, List.length_map, List.length_map], fun j hj => ?_⟩
  have hle : colsBelow l (j + 1) ≤ l.length := List.countP_le_length _
  refine ⟨colsBelow l j, colsBelow l (j + 1), hptr j (by omega), hptr (j + 1) (by omega),
    TCCSMatrix.colsBelow_mono l (Nat.le_succ j), by rw [hri, List.length_map]; exact hle, ?_⟩
  intro ip _ hip
  have hlt : ip < l.length := by omega
  refine ⟨(l[ip]).1.1, ?_, (hr _ (List.getElem_mem hlt)).1⟩
  rw [hri, List.getElem?_map, List.getElem?_eq_getElem hlt]
  rfl

/-- Index bounds of a well-formed CRS matrix: every slice `[rowptr[i],
rowptr[i+1])` lies inside the index and value arrays, and every column index
stored in it is `< N`. -/
theorem crs_bounds_of_stores {T : Type} {B : TCRSMatrix T} {N : Nat} {l : entry_map_t T}
    (h : B.Stores N l) :
    B.values.length = B.colind.length ∧
    ∀ i, i < N → ∃ lo hi : Nat, B.rowptr[i]? = some (lo : Int) ∧
      B.rowptr[i + 1]? = some (hi : Int) ∧ lo ≤ hi ∧ hi ≤ B.colind.length ∧
      ∀ jp, lo ≤ jp → jp < hi → ∃ j : Nat, B.colind[jp]? = some (j : Int) ∧ j < N := by
  obtain ⟨-, hr, -, hptr, hci, hv⟩ := h
  refine ⟨by rw [hci, hv, List.length_map, List.length_map], fun i hi => ?_⟩
  have hle : rowsBelow l (i + 1) ≤ l.length := List.countP_le_length _
  refine ⟨rowsBelow l i, rowsBelow l (i + 1), hptr i (by omega), hptr (i + 1) (by omega),
    rowsBelow_mono l (Nat.le_succ i), by rw [hci, List.length_map]; exact hle, ?_⟩
  intro jp _ hjp
  have hlt : jp < l.length := by omega
  refine ⟨(l[jp]).1.2, ?_, (hr _ (List.getElem_mem hlt)).2⟩
  rw [hci, List.getElem?_map, List.getElem?_eq_getElem hlt]
  rfl

theorem row_eq_filter {T : Type} {B : TCRSMatrix T} {N : Nat} {l : entry_map_t T}
    (h : B.Stores N l) (k : Nat) (hk : k < N) :
    B.row k =
      some ((l.filter (fun e => decide (e.1.1 = k))).map (fun e => ((e.1.2 : Int), e.2))) := by
  obtain ⟨hmono, -, -, hptr, hci, hv⟩ := h
  have hcol := column_eq_filter N (transpose l)
    { n := B.n, colptr := B.rowptr, rowind := B.colind, values := B.values }
    (by rw [transpose, List.pairwise_map]; exact hmono)
    (by intro j hj; rw [colsBelow_transpose]; exact hptr j hj)
    (by show B.colind = _; rw [hci, transpose, List.map_map]; rfl)
    (by show B.values = _; rw [hv, transpose, List.map_map]; rfl) k hk
  have hrow : B.row k = TCCSMatrix.column
      { n := B.n, colptr := B.rowptr, rowind := B.colind, values := B.values } k := rfl
  rw [hrow, hcol, transpose, List.filter_map, List.map_map]
  rfl

/-- C19. For `N < 2^31 - 1` (so that `n + 1` is an `int`) and fewer than `2^31` entries,
sorted entry sets with indices `< N` and every column (resp. row) populated,
and `X`, `Y` of length `N`, the CCS (resp. CRS) kernel on the
constructed matrix performs no out-of-bounds access: it returns a result; the
pointer array has `N + 1` slots; for every `j < N` the slice bounds satisfy
`0 ≤ colptr[j] ≤ colptr[j+1] ≤ nnz`, where `nnz` is the length of the index
and value arrays; and every index read in the slice is `< N`. -/
theorem C19_multiply_index_safe {T : Type} [CommRing T] (N : Nat) (lc lr : entry_map_t T)
    (memc memr : Fresh T)
    (hN : N < 2147483647) (hnc : lc.length < 2147483648) (hnr : lr.length < 2147483648)
    (hsc : TCCSMatrix.IsEntryMap lc) (hrc : InRange N lc) (hpc : ColsPopulated N lc)
    (hsr : TCRSMatrix.IsEntryMap lr) (hrr : InRange N lr) (hpr : RowsPopulated N lr)
    (X Y : List T) (hX : X.length = N) (hY : Y.length = N) (scale_AX scale_Y : T) :
    (∃ A Y2, TCCSMatrix.ofEntries N lc memc = some A ∧
      A.MultMV X Y scale_AX scale_Y = some Y2 ∧
      A.colptr.length = N + 1 ∧ A.values.length = A.rowind.length ∧
      ∀ j, j < N → ∃ lo hi : Nat, A.colptr[j]? = some (lo : Int) ∧
        A.colptr[j + 1]? = some (hi : Int) ∧ lo ≤ hi ∧ hi ≤ A.rowind.length ∧
        ∀ ip, lo ≤ ip → ip < hi → ∃ i : Nat, A.rowind[ip]? = some (i : Int) ∧ i < N) ∧
    (∃ B Y2, TCRSMatrix.ofEntries N lr memr = some B ∧
      B.MultMV X Y scale_AX scale_Y = some Y2 ∧
      B.rowptr.length = N + 1 ∧ B.values.length = B.colind.length ∧
      ∀ i, i < N → ∃ lo hi : Nat, B.rowptr[i]? = some (lo : Int) ∧
        B.rowptr[i + 1]? = some (hi : Int) ∧ lo ≤ hi ∧ hi ≤ B.colind.length ∧
        ∀ jp, lo ≤ jp → jp < hi → ∃ j : Nat, B.colind[jp]? = some (j : Int) ∧ j < N) := by
  constructor
  · obtain ⟨A, hA, hst⟩ := ccs_stores_of_tail_populated N lc memc hN hnc hsc hrc
      (fun k _ hk => hpc k hk)
    obtain ⟨Y2, hY2, -, -⟩ := ccs_multMV_stores hst X Y hX hY scale_AX scale_Y
    obtain ⟨hlen, -⟩ := TCCSMatrix.ofEntries_ptr N lc memc hN hnc hrc hsc.cols_mono hA
    obtain ⟨hv, hb⟩ := ccs_bounds_of_stores hst
    exact ⟨A, Y2, hA, hY2, hlen, hv, hb⟩
  · obtain ⟨B, hB, hst⟩ := crs_stores_of_tail_populated N lr memr hN hnr hsr hrr
      (fun k _ hk => hpr k hk)
    obtain ⟨Y2, hY2, -, -⟩ := crs_multMV_stores hst X Y hX hY scale_AX scale_Y
    obtain ⟨hv, hb⟩ := crs_bounds_of_stores hst
    refine ⟨B, Y2, hB, hY2, ?_, hv, hb⟩
    have hnt : (transpose lr).length < 2147483648 := by rw [length_transpose]; exact hnr
    obtain ⟨A, st, hA, -⟩ := TCCSMatrix.ofEntries_arrays N (transpose lr) memr
      hN hnt (inRange_transpose hrr)
    obtain ⟨hlen, -⟩ := TCCSMatrix.ofEntries_ptr N (transpose lr) memr
      hN hnt (inRange_transpose hrr)
      ((TCRSMatrix.isEntryMap_iff_transpose lr).mp hsr).cols_mono hA
    rw [TCRSMatrix.ofEntries_eq_ccs, hA] at hB
    cases hB
    exact hlen

theorem C19_multiply_index_safe_witness :
    (∃ A Y2, TCCSMatrix.ofEntries 2 sampleEntries staleMem = some A ∧
      A.MultMV [10, 100] [5, 6] 7 3 = some Y2 ∧
      A.colptr.length = 2 + 1 ∧ A.values.length = A.rowind.length ∧
      ∀ j, j < 2 → ∃ lo hi : Nat, A.colptr[j]? = some (lo : Int) ∧
        A.colptr[j + 1]? = some (hi : Int) ∧ lo ≤ hi ∧ hi ≤ A.rowind.length ∧
        ∀ ip, lo ≤ ip → ip < hi → ∃ i : Nat, A.rowind[ip]? = some (i : Int) ∧ i < 2) ∧
    (∃ B Y2, TCRSMatrix.ofEntries 2 sampleEntries staleMem = some B ∧
      B.MultMV [10, 100] [5, 6] 7 3 = some Y2 ∧
      B.rowptr.length = 2 + 1 ∧ B.values.length = B.colind.length ∧
      ∀ i, i < 2 → ∃ lo hi : Nat, B.rowptr[i]? = some (lo : Int) ∧
        B.rowptr[i + 1]? = some (hi : Int) ∧ lo ≤ hi ∧ hi ≤ B.colind.length ∧
        ∀ jp, lo ≤ jp → jp < hi → ∃ j : Nat, B.colind[jp]? = some (j : Int) ∧ j < 2) :=
  C19_multiply_index_safe 2 sampleEntries sampleEntries staleMem staleMem
    (by decide) (by decide) (by decide)
    (by unfold TCCSMatrix.IsEntryMap; decide) (by unfold InRange; decide)
    (by unfold ColsPopulated; decide)
    (by unfold TCRSMatrix.IsEntryMap; decide) (by unfold InRange; decide)
    (by unfold RowsPopulated; decide) [10, 100] [5, 6] rfl rfl 7 3

/-- C18. For `N < 2^31 - 1` (so that `n + 1` is an `int`) and fewer than `2^31` entries,
and a sorted entry set with indices `< N` in which every column `1..N-1` holds an
entry (column 0 may be empty), the CCS constructor returns a
matrix whose pointer array is fully correct: `colptr[k]` is the number of
entries with column `< k` for every `k` in `0..N`, hence non-decreasing, and
the read-back of every column `k < N`, the empty column 0 included, is exactly
the list of entries of column `k`.  Symmetrically for rows and the CRS
constructor. -/
theorem C18_empty_slice_zero_harmless {T : Type} (N : Nat) (lc lr : entry_map_t T)
    (memc memr : Fresh T)
    (hN : N < 2147483647) (hnc : lc.length < 2147483648) (hnr : lr.length < 2147483648)
    (hsc : TCCSMatrix.IsEntryMap lc) (hrc : InRange N lc)
    (hpc : ∀ k, k < N → 0 < k → ∃ e ∈ lc, e.1.2 = k)
    (hsr : TCRSMatrix.IsEntryMap lr) (hrr : InRange N lr)
    (hpr : ∀ k, k < N → 0 < k → ∃ e ∈ lr, e.1.1 = k) :
    (∃ A, TCCSMatrix.ofEntries N lc memc = some A ∧
      (∀ k, k ≤ N → A.colptr[k]? = some ((colsBelow lc k : Nat) : Int)) ∧
      (∀ k, k < N → colsBelow lc k ≤ colsBelow lc (k + 1)) ∧
      ∀ k, k < N → A.column k = some ((lc.filter (fun e => decide (e.1.2 = k))).map
        (fun e => ((e.1.1 : Int), e.2)))) ∧
    (∃ B, TCRSMatrix.ofEntries N lr memr = some B ∧
      (∀ k, k ≤ N → B.rowptr[k]? = some ((rowsBelow lr k : Nat) : Int)) ∧
      (∀ k, k < N → rowsBelow lr k ≤ rowsBelow lr (k + 1)) ∧
      ∀ k, k < N → B.row k = some ((lr.filter (fun e => decide (e.1.1 = k))).map
        (fun e => ((e.1.2 : Int), e.2)))) := by
  constructor
  · obtain ⟨A, hA, hst⟩ := ccs_stores_of_tail_populated N lc memc hN hnc hsc hrc
      (fun k h0 hk => hpc k hk h0)
    obtain ⟨hmono, -, -, hptr, hri, hv⟩ := hst
    exact ⟨A, hA, hptr, fun k _ => TCCSMatrix.colsBelow_mono lc (Nat.le_succ k),
      fun k hk => column_eq_filter N lc A hmono hptr hri hv k hk⟩
  · obtain ⟨B, hB, hst⟩ := crs_stores_of_tail_populated N lr memr hN hnr hsr hrr
      (fun k h0 hk => hpr k hk h0)
    exact ⟨B, hB, hst.2.2.2.1, fun k _ => rowsBelow_mono lr (Nat.le_succ k),
      fun k hk => row_eq_filter hst k hk⟩

theorem C18_empty_slice_zero_harmless_witness :
    (∃ A, TCCSMatrix.ofEntries 3 [((0, 1), 4), ((1, 2), 5)] staleMem = some A ∧
      (∀ k, k ≤ 3 → A.colptr[k]? =
        some ((colsBelow ([((0, 1), 4), ((1, 2), 5)] : entry_map_t Int) k : Nat) : Int)) ∧
      (∀ k, k < 3 → colsBelow ([((0, 1), 4), ((1, 2), 5)] : entry_map_t Int) k ≤
        colsBelow ([((0, 1), 4), ((1, 2), 5)] : entry_map_t Int) (k + 1)) ∧
      ∀ k, k < 3 → A.column k =
        some ((([((0, 1), 4), ((1, 2), 5)] : entry_map_t Int).filter
          (fun e => decide (e.1.2 = k))).map (fun e => ((e.1.1 : Int), e.2)))) ∧
    (∃ B, TCRSMatrix.ofEntries 3 [((1, 0), 4), ((2, 1), 5)] staleMem = some B ∧
      (∀ k, k ≤ 3 → B.rowptr[k]? =
        some ((rowsBelow ([((1, 0), 4), ((2, 1), 5)] : entry_map_t Int) k : Nat) : Int)) ∧
      (∀ k, k < 3 → rowsBelow ([((1, 0), 4), ((2, 1), 5)] : entry_map_t Int) k ≤
        rowsBelow ([((1, 0), 4), ((2, 1), 5)] : entry_map_t Int) (k + 1)) ∧
      ∀ k, k < 3 → B.row k =
        some ((([((1, 0), 4), ((2, 1), 5)] : entry_map_t Int).filter
          (fun e => decide (e.1.1 = k))).map (fun e => ((e.1.2 : Int), e.2)))) :=
  C18_empty_slice_zero_harmless 3 [((0, 1), 4), ((1, 2), 5)] [((1, 0), 4), ((2, 1), 5)]
    staleMem staleMem (by decide) (by decide) (by decide)
    (by unfold TCCSMatrix.IsEntryMap; decide) (by unfold InRange; decide) (by decide)
    (by unfold TCRSMatrix.IsEntryMap; decide) (by unfold InRange; decide) (by decide)

/-- The storage of an entry list, with a pointer array of `N + 1` slots,
satisfies the structural invariants. -/
theorem ccs_wellFormed_of_stores {T : Type} {A : TCCSMatrix T} {N : Nat} {l : entry_map_t T}
    (h : A.Stores N l) (hlen : A.colptr.length = N + 1) : A.WellFormed N := by
  obtain ⟨-, hr, hn, hptr, hri, hv⟩ := h
  refine ⟨hn, hlen, ?_, ?_, by rw [hri, hv, List.length_map, List.length_map], ?_, ?_⟩
  · rw [hptr 0 (Nat.zero_le _), TCCSMatrix.colsBelow_eq_zero l (fun _ _ => Nat.zero_le _)]
    rfl
  · rw [hptr N (le_refl _), TCCSMatrix.colsBelow_eq_length l (fun e he => (hr e he).2), hri,
      List.length_map]
  · intro k hk
    rw [getD_of_getElem?_eq_some 0 (hptr k (by omega)),
      getD_of_getElem?_eq_some 0 (hptr (k + 1) (by omega))]
    exact_mod_cast TCCSMatrix.colsBelow_mono l (Nat.le_succ k)
  · intro i hi
    rw [hri, List.mem_map] at hi
    obtain ⟨e, he, rfl⟩ := hi
    have := (hr e he).1
    constructor
    · exact Int.ofNat_nonneg _
    · exact_mod_cast this

/-- The CCS constructor returns a structurally well-formed matrix for every
dimension and number of entries that fit in an `int` and every sorted entry
set with indices `< N` in which every column other than column 0 is
populated. -/
theorem ccs_ofEntries_wellFormed {T : Type} (N : Nat) (l : entry_map_t T) (mem : Fresh T)
    (hN : N < 2147483647) (hnnz : l.length < 2147483648)
    (hs : TCCSMatrix.IsEntryMap l) (hr : InRange N l)
    (hp : ∀ k, 0 < k → k < N → ∃ e ∈ l, e.1.2 = k) :
    ∃ A, TCCSMatrix.ofEntries N l mem = some A ∧ A.WellFormed N := by
  obtain ⟨A, hA, hst⟩ := ccs_stores_of_tail_populated N l mem hN hnnz hs hr hp
  obtain ⟨hlen, -⟩ := TCCSMatrix.ofEntries_ptr N l mem hN hnnz hr hs.cols_mono hA
  exact ⟨A, hA, ccs_wellFormed_of_stores hst hlen⟩

/-- The CRS constructor returns a structurally well-formed matrix for every
dimension and number of entries that fit in an `int` and every sorted entry
set with indices `< N` in which every row other than row 0 is populated. -/
theorem crs_ofEntries_wellFormed {T : Type} (N : Nat) (l : entry_map_t T) (mem : Fresh T)
    (hN : N < 2147483647) (hnnz : l.length < 2147483648)
    (hs : TCRSMatrix.IsEntryMap l) (hr : InRange N l)
    (hp : ∀ k, 0 < k → k < N → ∃ e ∈ l, e.1.1 = k) :
    ∃ B, TCRSMatrix.ofEntries N l mem = some B ∧ B.WellFormed N := by
  have hpt : ∀ k, 0 < k → k < N → ∃ e ∈ transpose l, e.1.2 = k := by
    intro k hk0 hk
    obtain ⟨e, he, hek⟩ := hp k hk0 hk
    exact ⟨swapEntry e, List.mem_map_of_mem _ he, hek⟩
  obtain ⟨A, hA, hwf⟩ := ccs_ofEntries_wellFormed N (transpose l) mem
    hN (by rw [length_transpose]; exact hnnz)
    ((TCRSMatrix.isEntryMap_iff_transpose l).mp hs) (inRange_transpose hr) hpt
  rw [TCRSMatrix.ofEntries_eq_ccs, hA]
  exact ⟨_, rfl, hwf⟩

/-! ## Concrete scenarios -/

/-- C14. For `N = 3` and the entries `(0,0) = 2, (1,0) = 1, (1,1) = 3,
(2,2) = 5`, constructing the CCS matrix and multiplying with `X = [1,1,1]`,
`scale_AX = 1`, `scale_Y = 0` yields `Y = [2,4,5]` for any initial `Y` of
length 3; the CRS matrix built from the same entries yields the same
`Y = [2,4,5]`. -/
theorem C14_concrete_scenario {T : Type} [CommRing T] (memc memr : Fresh T) (Y : List T)
    (hY : Y.length = 3) :
    (∃ A, TCCSMatrix.ofEntries 3
        [((0, 0), (2 : T)), ((1, 0), 1), ((1, 1), 3), ((2, 2), 5)] memc = some A ∧
      A.MultMV [1, 1, 1] Y 1 0 = some [2, 4, 5]) ∧
    (∃ B, TCRSMatrix.ofEntries 3
        [((0, 0), (2 : T)), ((1, 0), 1), ((1, 1), 3), ((2, 2), 5)] memr = some B ∧
      B.MultMV [1, 1, 1] Y 1 0 = some [2, 4, 5]) := by
  have hr : InRange 3 [((0, 0), (2 : T)), ((1, 0), 1), ((1, 1), 3), ((2, 2), 5)] := by
    simp [InRange]
  have hrow : ∀ i, i < 3 →
      rowDot [((0, 0), (2 : T)), ((1, 0), 1), ((1, 1), 3), ((2, 2), 5)] [1, 1, 1] i =
        ([2, 4, 5] : List T).getD i 0 := by
    intro i hi
    interval_cases i <;>
      (simp only [rowDot, List.filter, List.map, List.sum_cons, List.sum_nil,
        List.getD_cons_zero, List.getD_cons_succ]
       simp
       try norm_num)
  constructor
  · obtain ⟨A, hA, hst⟩ := ccs_stores_of_tail_populated 3
      [((0, 0), (2 : T)), ((1, 0), 1), ((1, 1), 3), ((2, 2), 5)] memc
      (by norm_num) (by simp)
      (by simp [TCCSMatrix.IsEntryMap, TCCSMatrix.index_comp_t]) hr
      (by intro k _ hk; interval_cases k <;> simp)
    obtain ⟨Y2, hY2, hlen, hpt⟩ := ccs_multMV_stores hst [1, 1, 1] Y rfl hY 1 0
    have : Y2 = [2, 4, 5] := eq_of_getElem?_eq_below hlen rfl (fun i hi => by
      rw [hpt i hi, hrow i hi, zero_mul, zero_add, one_mul]
      interval_cases i <;> rfl)
    rw [this] at hY2
    exact ⟨A, hA, hY2⟩
  · obtain ⟨B, hB, hst⟩ := crs_stores_of_tail_populated 3
      [((0, 0), (2 : T)), ((1, 0), 1), ((1, 1), 3), ((2, 2), 5)] memr
      (by norm_num) (by simp)
      (by simp [TCRSMatrix.IsEntryMap, TCRSMatrix.index_comp_t]) hr
      (by intro k _ hk; interval_cases k <;> simp)
    obtain ⟨Y2, hY2, hlen, hpt⟩ := crs_multMV_stores hst [1, 1, 1] Y rfl hY 1 0
    have : Y2 = [2, 4, 5] := eq_of_getElem?_eq_below hlen rfl (fun i hi => by
      rw [hpt i hi, hrow i hi, zero_mul, zero_add, one_mul, one_mul]
      interval_cases i <;> rfl)
    rw [this] at hY2
    exact ⟨B, hB, hY2⟩

theorem C14_concrete_scenario_witness :
    (∃ A, TCCSMatrix.ofEntries 3
        [((0, 0), (2 : Int)), ((1, 0), 1), ((1, 1), 3), ((2, 2), 5)] staleMem = some A ∧
      A.MultMV [1, 1, 1] [50, -60, 70] 1 0 = some [2, 4, 5]) ∧
    (∃ B, TCRSMatrix.ofEntries 3
        [((0, 0), (2 : Int)), ((1, 0), 1), ((1, 1), 3), ((2, 2), 5)] staleMem = some B ∧
      B.MultMV [1, 1, 1] [50, -60, 70] 1 0 = some [2, 4, 5]) :=
  C14_concrete_scenario staleMem staleMem [50, -60, 70] rfl

/-- C15. For `N = 1` and the single entry `(0,0) = v`, the loop of the CCS
(resp. CRS) constructor leaves the pointer array as it found it (its pointer
write is not executed: slot 1 still holds its stale value after the loop), the
constructed matrix has `pointer = [0,1]`, `index = [0]`, `values = [v]`, and
the kernel with `X = [x]`, `scale_AX = 1`, `scale_Y = 0` yields `Y = [v*x]`,
for both layouts and any initial `Y = [y]`. -/
theorem C15_boundary_single_entry {T : Type} [CommRing T] (v x y : T) (memc memr : Fresh T) :
    (TCCSMatrix.loop [((0, 0), v)]
        { ip := 0, prev := 0, ptr := [0, memc.ptr 1], ind := [memc.ind 0],
          values := [memc.values 0] } =
      some { ip := 1, prev := 0, ptr := [0, memc.ptr 1], ind := [0], values := [v] } ∧
      ∃ A, TCCSMatrix.ofEntries 1 [((0, 0), v)] memc = some A ∧ A.n = 1 ∧
        A.colptr = [0, 1] ∧ A.rowind = [0] ∧ A.values = [v] ∧
        A.MultMV [x] [y] 1 0 = some [v * x]) ∧
    (TCRSMatrix.loop [((0, 0), v)]
        { ip := 0, prev := 0, ptr := [0, memr.ptr 1], ind := [memr.ind 0],
          values := [memr.values 0] } =
      some { ip := 1, prev := 0, ptr := [0, memr.ptr 1], ind := [0], values := [v] } ∧
      ∃ B, TCRSMatrix.ofEntries 1 [((0, 0), v)] memr = some B ∧ B.n = 1 ∧
        B.rowptr = [0, 1] ∧ B.colind = [0] ∧ B.values = [v] ∧
        B.MultMV [x] [y] 1 0 = some [v * x]) := by
  have hr : InRange 1 [((0, 0), v)] := by simp [InRange]
  have hrow : rowDot [((0, 0), v)] [x] 0 = v * x := by simp [rowDot]
  constructor
  · refine ⟨by simp [TCCSMatrix.loop, TCCSMatrix.step, wrN, toInt], ?_⟩
    have hs : TCCSMatrix.IsEntryMap [((0, 0), v)] := by simp [TCCSMatrix.IsEntryMap]
    obtain ⟨A, hA, hst⟩ := ccs_stores_of_tail_populated 1 [((0, 0), v)] memc
      (by norm_num) (by simp) hs hr (by intro k h0 hk; omega)
    obtain ⟨Y2, hY2, hlen, hpt⟩ := ccs_multMV_stores hst [x] [y] rfl rfl 1 0
    have hY : Y2 = [v * x] := eq_of_getElem?_eq_below hlen rfl (fun i hi => by
      have hi0 : i = 0 := by omega
      subst hi0
      rw [hpt 0 hi, hrow, zero_mul, zero_add, one_mul]
      rfl)
    rw [hY] at hY2
    obtain ⟨hlen2, -⟩ := TCCSMatrix.ofEntries_ptr 1 [((0, 0), v)] memc
      (by norm_num) (by simp) hr hs.cols_mono hA
    obtain ⟨-, -, hn, hptr, hri, hv⟩ := hst
    have hcp : A.colptr = [0, 1] := by
      apply List.ext_getElem?
      intro i
      rcases i with _ | _ | i
      · rw [hptr 0 (by omega)]
        simp [colsBelow]
      · rw [hptr 1 (by omega)]
        simp [colsBelow]
      · rw [List.getElem?_eq_none (by omega)]
        simp
    exact ⟨A, hA, by simpa using hn, hcp, by simpa using hri, by simpa using hv, hY2⟩
  · refine ⟨by simp [TCRSMatrix.loop, TCRSMatrix.step, wrN, toInt], ?_⟩
    have hs : TCRSMatrix.IsEntryMap [((0, 0), v)] := by simp [TCRSMatrix.IsEntryMap]
    obtain ⟨B, hB, hst⟩ := crs_stores_of_tail_populated 1 [((0, 0), v)] memr
      (by norm_num) (by simp) hs hr (by intro k h0 hk; omega)
    obtain ⟨Y2, hY2, hlen, hpt⟩ := crs_multMV_stores hst [x] [y] rfl rfl 1 0
    have hY : Y2 = [v * x] := eq_of_getElem?_eq_below hlen rfl (fun i hi => by
      have hi0 : i = 0 := by omega
      subst hi0
      rw [hpt 0 hi, hrow, zero_mul, zero_add, one_mul, one_mul]
      rfl)
    rw [hY] at hY2
    obtain ⟨B2, hB2, hwf⟩ := crs_ofEntries_wellFormed 1 [((0, 0), v)] memr
      (by norm_num) (by simp) hs hr (by intro k h0 hk; omega)
    rw [hB] at hB2
    cases hB2
    obtain ⟨-, -, hn, hptr, hci, hv⟩ := hst
    have hcp : B.rowptr = [0, 1] := by
      apply List.ext_getElem?
      intro i
      rcases i with _ | _ | i
      · rw [hptr 0 (by omega)]
        simp [rowsBelow]
      · rw [hptr 1 (by omega)]
        simp [rowsBelow]
      · rw [List.getElem?_eq_none (by rw [hwf.2.1]; omega)]
        simp
    exact ⟨B, hB, by simpa using hn, hcp, by simpa using hci, by simpa using hv, hY2⟩

/-! ## The ordering keys of the entry sets -/

theorem ccs_comp_iff (a b : index_t) :
    TCCSMatrix.index_comp_t a b = true ↔ (a.2 < b.2 ∨ (a.2 = b.2 ∧ a.1 < b.1)) := by
  unfold TCCSMatrix.index_comp_t
  split_ifs with h1 h2
  · exact ⟨fun _ => Or.inl h1, fun _ => rfl⟩
  · constructor
    · intro h; cases h
    · intro h
      exfalso
      rcases h with h | ⟨h, -⟩ <;> omega
  · rw [decide_eq_true_eq]
    constructor
    · intro h; exact Or.inr ⟨by omega, h⟩
    · intro h
      rcases h with h | ⟨-, h⟩
      · exact absurd h h1
      · exact h

theorem crs_comp_iff (a b : index_t) :
    TCRSMatrix.index_comp_t a b = true ↔ (a.1 < b.1 ∨ (a.1 = b.1 ∧ a.2 < b.2)) := by
  unfold TCRSMatrix.index_comp_t
  split_ifs with h1 h2
  · exact ⟨fun _ => Or.inl h1, fun _ => rfl⟩
  · constructor
    · intro h; cases h
    · intro h
      exfalso
      rcases h with h | ⟨h, -⟩ <;> omega
  · rw [decide_eq_true_eq]
    constructor
    · intro h; exact Or.inr ⟨by omega, h⟩
    · intro h
      rcases h with h | ⟨-, h⟩
      · exact absurd h h1
      · exact h

/-- C20. The CCS comparator is the strict lexicographic order on
`(col, row)` and the CRS comparator the strict lexicographic order on
`(row, col)`.  Each is irreflexive and transitive, for two distinct keys
exactly one of `comp(a,b)`, `comp(b,a)` holds, and two keys neither of which
precedes the other are the same `(row, col)` pair. -/
theorem C20_comparator_orders (a b c : index_t) :
    ((TCCSMatrix.index_comp_t a b = true ↔ (a.2 < b.2 ∨ (a.2 = b.2 ∧ a.1 < b.1))) ∧
      TCCSMatrix.index_comp_t a a = false ∧
      (TCCSMatrix.index_comp_t a b = true → TCCSMatrix.index_comp_t b c = true →
        TCCSMatrix.index_comp_t a c = true) ∧
      (a ≠ b →
        (TCCSMatrix.index_comp_t a b = true ∧ TCCSMatrix.index_comp_t b a = false) ∨
        (TCCSMatrix.index_comp_t a b = false ∧ TCCSMatrix.index_comp_t b a = true)) ∧
      (TCCSMatrix.index_comp_t a b = false → TCCSMatrix.index_comp_t b a = false → a = b)) ∧
    ((TCRSMatrix.index_comp_t a b = true ↔ (a.1 < b.1 ∨ (a.1 = b.1 ∧ a.2 < b.2))) ∧
      TCRSMatrix.index_comp_t a a = false ∧
      (TCRSMatrix.index_comp_t a b = true → TCRSMatrix.index_comp_t b c = true →
        TCRSMatrix.index_comp_t a c = true) ∧
      (a ≠ b →
        (TCRSMatrix.index_comp_t a b = true ∧ TCRSMatrix.index_comp_t b a = false) ∨
        (TCRSMatrix.index_comp_t a b = false ∧ TCRSMatrix.index_comp_t b a = true)) ∧
      (TCRSMatrix.index_comp_t a b = false → TCRSMatrix.index_comp_t b a = false → a = b)) := by
  have hne : a ≠ b → a.1 ≠ b.1 ∨ a.2 ≠ b.2 := by
    intro h
    by_contra hc
    push_neg at hc
    exact h (Prod.ext hc.1 hc.2)
  constructor
  · refine ⟨ccs_comp_iff a b, ?_, ?_, ?_, ?_⟩
    · rw [← Bool.not_eq_true, ccs_comp_iff]; omega
    · rw [ccs_comp_iff, ccs_comp_iff, ccs_comp_iff]; omega
    · intro h
      have := hne h
      rw [← Bool.not_eq_true, ← Bool.not_eq_true, ccs_comp_iff, ccs_comp_iff]; omega
    · rw [← Bool.not_eq_true, ← Bool.not_eq_true, ccs_comp_iff, ccs_comp_iff]
      intro h1 h2
      exact Prod.ext (by omega) (by omega)
  · refine ⟨crs_comp_iff a b, ?_, ?_, ?_, ?_⟩
    · rw [← Bool.not_eq_true, crs_comp_iff]; omega
    · rw [crs_comp_iff, crs_comp_iff, crs_comp_iff]; omega
    · intro h
      have := hne h
      rw [← Bool.not_eq_true, ← Bool.not_eq_true, crs_comp_iff, crs_comp_iff]; omega
    · rw [← Bool.not_eq_true, ← Bool.not_eq_true, crs_comp_iff, crs_comp_iff]
      intro h1 h2
      exact Prod.ext (by omega) (by omega)

end RNP.Sparse
